import Mathlib

/-!
Verification development for the screeps-clockwork multiroom pathfinding
library.  The TypeScript helpers and wrappers under `src/` are embedded
directly; the Rust/WASM search engines, flow fields and path
reconstruction are not part of the TypeScript sources, so they are
modelled from the specification (each such definition carries a doc
comment starting with `Modelled from the spec:`).
-/

set_option maxRecDepth 10000

namespace Clockwork

/-! ## Metrics helpers (src/test/tests/helpers/metrics.ts)

JavaScript numbers are embedded as integers: none of the verified
properties depend on fractional values, and the thrown-error behaviour
is value-independent.  A thrown `Error` is embedded as `Except.error`
carrying the message. -/

inductive MetricMode where
  | minimize
  | maximize
  | «match»
deriving DecidableEq, Repr

namespace MetricCalculator

/-- Embedding of `MetricCalculator.beats`: in minimize/maximize mode the
reference value is ignored; in match mode a missing reference throws and
otherwise the candidate wins when its absolute difference from the
reference is strictly smaller. -/
def beats (value otherValue : Int) (mode : MetricMode) (referenceValue : Option Int) :
    Except String Bool :=
  match mode with
  | .minimize => .ok (value < otherValue)
  | .maximize => .ok (otherValue < value)
  | .«match» =>
    match referenceValue with
    | none => .error "Reference value required for match mode"
    | some ref => .ok ((value - ref).natAbs < (otherValue - ref).natAbs)

/-- Embedding of `MetricCalculator.findWinners`.  An empty implementation
list returns the empty list before any mode dispatch; in match mode a
missing reference throws, otherwise the implementations closest to the
reference win; in minimize/maximize mode the implementations equal to the
best value win. -/
def findWinners (implementations : List (String × Int)) (mode : MetricMode)
    (referenceValue : Option Int) : Except String (List String) :=
  if implementations.isEmpty then .ok []
  else
    match mode with
    | .«match» =>
      match referenceValue with
      | none => .error "Reference value required for match mode"
      | some ref =>
        let diffs := implementations.map (fun impl => (impl.1, (impl.2 - ref).natAbs))
        let bestDiff := (diffs.map (fun d => d.2)).foldl min
          ((diffs.map (fun d => d.2)).headD 0)
        .ok ((diffs.filter (fun d => d.2 = bestDiff)).map (fun d => d.1))
    | .minimize =>
      let values := implementations.map (fun i => i.2)
      let bestValue := values.foldl min (values.headD 0)
      .ok ((implementations.filter (fun impl => impl.2 = bestValue)).map (fun impl => impl.1))
    | .maximize =>
      let values := implementations.map (fun i => i.2)
      let bestValue := values.foldl max (values.headD 0)
      .ok ((implementations.filter (fun impl => impl.2 = bestValue)).map (fun impl => impl.1))

/-- Embedding of `MetricCalculator.beatReference`.  In match mode both a
missing reference (`undefined`) and a zero reference throw; otherwise the
candidate beats the reference only by exact equality.  In the remaining
modes the call delegates to `beats`; comparing against a missing
reference (`value < undefined` in JavaScript) yields `false`. -/
def beatReference (value : Int) (referenceValue : Option Int) (mode : MetricMode) :
    Except String Bool :=
  match mode with
  | .«match» =>
    if referenceValue = none ∨ referenceValue = some 0 then
      .error "Reference value required for match mode"
    else .ok (some value = referenceValue)
  | _ =>
    match referenceValue with
    | none => .ok false
    | some ref => beats value ref mode none

end MetricCalculator

/-! ## Path cost helper (src/test/tests/helpers/paths.ts)

The helper walks a list of positions, returns `Infinity` as soon as a
wall tile is seen and otherwise accumulates 5 per swamp tile and 1 per
other tile.  `Infinity` is embedded as `none`; positions are abstract,
the terrain lookup is a function argument. -/

inductive Terrain where
  | plain
  | swamp
  | wall
deriving DecidableEq, Repr

/-- Cost contributed by one non-wall tile: 5 for swamp, 1 otherwise. -/
def terrainStepCost : Terrain → Nat
  | .swamp => 5
  | _ => 1

/-- Embedding of `getPathCost`: early return of Infinity (`none`) on the
first wall tile, otherwise the sum of the per-tile costs over the whole
list, the first position included. -/
def getPathCost {α : Type} (terrain : α → Terrain) : List α → Option Nat
  | [] => some 0
  | pos :: rest =>
    if terrain pos = .wall then none
    else
      match getPathCost terrain rest with
      | none => none
      | some c => some (terrainStepCost (terrain pos) + c)

/-! ## Point-to-point wrapper guards
(src/src/wrappers/jasperStar.ts, src/src/wrappers/rustPathFinder.ts and
the jpsPath wrapper)

Each wrapper validates the destination list before invoking the WASM
search.  The WASM search itself is not part of the TypeScript sources,
so it is passed in as an opaque function argument; the theorems then
hold for every possible behaviour of the search, which captures that the
guard fires before any search work.  A missing (undefined) destination
array is embedded as `none`, since the guard `!goals?.length` accepts
both a missing and an empty array. -/

structure RoomPosition where
  x : Nat
  y : Nat
  roomName : String
deriving DecidableEq, Repr

structure PathfinderResult where
  path : List RoomPosition
  ops : Nat
  cost : Nat
  incomplete : Bool
deriving DecidableEq, Repr

/-- Embedding of `jasper_star`: throws on an empty or missing goal list,
otherwise forwards origin and goals to the WASM search (abstracted as
`jsJasperStar`, covering the packing and result unpacking around
`js_jasper_star`). -/
def jasper_star (jsJasperStar : RoomPosition → List RoomPosition → Option PathfinderResult)
    (origin : RoomPosition) (goals : Option (List RoomPosition)) :
    Except String (Option PathfinderResult) :=
  if (goals.getD []).isEmpty then .error "At least one destination must be set"
  else .ok (jsJasperStar origin (goals.getD []))

/-- Embedding of `rust_pathfinder`: throws on an empty or missing goal
list, otherwise forwards to the WASM search (abstracted as
`jsPathfinder`). -/
def rust_pathfinder (jsPathfinder : RoomPosition → List RoomPosition → List RoomPosition)
    (origin : RoomPosition) (goals : Option (List RoomPosition)) :
    Except String (List RoomPosition) :=
  if (goals.getD []).isEmpty then .error "At least one destination must be set"
  else .ok (jsPathfinder origin (goals.getD []))

/-- Embedding of `jpsPath`: throws on an empty or missing destination
list, otherwise builds the JPS multiroom distance map and reconstructs a
path to its origin (both WASM calls abstracted as `jsJpsSearch`). -/
def jpsPath (jsJpsSearch : List RoomPosition → List RoomPosition → Nat → List RoomPosition)
    (start : List RoomPosition) (destinations : Option (List RoomPosition)) (maxOps : Nat) :
    Except String (List RoomPosition) :=
  if (destinations.getD []).isEmpty then .error "At least one destination must be set"
  else .ok (jsJpsSearch start (destinations.getD []) maxOps)

/-! ## Room-name codec (src/test/tests/helpers/positions.ts)

`parseRoomName` embeds the regular-expression parse
`^([WE])([0-9]+)([NS])([0-9]+)$` followed by `parseInt` on the digit
groups, mapping `W n` to `x = -n-1`, `E n` to `x = n`, `N n` to
`y = -n-1`, `S n` to `y = n`.  `coordToRoomName` embeds the inverse
formatting used by `getRoomNamesBetween`. -/

namespace RoomName

/-- Value of one decimal digit character. -/
def digitVal (c : Char) : Nat := c.toNat - 48

/-- Embedding of `parseInt` on a string of decimal digits. -/
def digitsToNat (l : List Char) : Nat :=
  l.foldl (fun acc c => 10 * acc + digitVal c) 0

/-- Character of one decimal digit. -/
def digitChar (m : Nat) : Char := Char.ofNat (48 + m)

/-- Fuel-driven helper for `natDigits`; any fuel above the number is
enough, so the fuel only serves structural recursion. -/
def natDigitsAux : Nat → Nat → List Char
  | 0, _ => []
  | fuel + 1, n =>
    if n < 10 then [digitChar n]
    else natDigitsAux fuel (n / 10) ++ [digitChar (n % 10)]

/-- Decimal digit list of a natural number, most significant first, as
produced by JavaScript template-string formatting of a non-negative
integer. -/
def natDigits (n : Nat) : List Char := natDigitsAux (n + 1) n

/-- Embedding of the room-name match in `parseRoomName`, on the
character list of the name. -/
def parseRoomNameChars : List Char → Option (Int × Int)
  | c :: rest =>
    if c = 'W' ∨ c = 'E' then
      let ds := rest.takeWhile Char.isDigit
      match rest.dropWhile Char.isDigit with
      | d :: rest2 =>
        if ds ≠ [] ∧ (d = 'N' ∨ d = 'S') ∧ rest2 ≠ [] ∧ rest2.all Char.isDigit then
          let xx : Int := digitsToNat ds
          let yy : Int := digitsToNat rest2
          some (if c = 'W' then -xx - 1 else xx, if d = 'N' then -yy - 1 else yy)
        else none
      | [] => none
    else none
  | [] => none

/-- Embedding of `parseRoomName`: parses `[WE]\d+[NS]\d+` and applies
the room-coordinate convention; malformed names give `none` (the thrown
`Invalid room name` error). -/
def parseRoomName (s : String) : Option (Int × Int) :=
  parseRoomNameChars s.data

/-- Embedding of the room-name formatting in `getRoomNamesBetween`:
negative x formats as `W(-x-1)`, non-negative as `E x`, and likewise
`N`/`S` on y. -/
def coordToRoomName (x y : Int) : String :=
  let xPrefix := if x < 0 then 'W' else 'E'
  let xNum := if x < 0 then (-(x + 1)).toNat else x.toNat
  let yPrefix := if y < 0 then 'N' else 'S'
  let yNum := if y < 0 then (-(y + 1)).toNat else y.toNat
  String.mk (xPrefix :: (natDigits xNum ++ yPrefix :: natDigits yNum))

end RoomName

/-! ## Shared grid geometry

Positions are global tile coordinates on the infinite room plane: each
50 by 50 room with room coordinate `(rx, ry)` covers the global tiles
`(rx * 50 + x, ry * 50 + y)` for local `x, y < 50`, matching the
`W/E/N/S` room-coordinate convention; a room-boundary transition is an
ordinary grid step between adjacent global tiles. -/

namespace Grid

/-- Offsets of the eight neighbours of a tile, in the fixed enumeration
order used everywhere (a fixed, documented tie-break order per the
spec). -/
def deltas : List (Int × Int) :=
  [(-1, -1), (-1, 0), (-1, 1), (0, -1), (0, 1), (1, -1), (1, 0), (1, 1)]

/-- Chebyshev distance between two global tiles. -/
def cheb (a b : Int × Int) : Nat :=
  max (a.1 - b.1).natAbs (a.2 - b.2).natAbs

/-- Tile reached from `c` by offset `d`. -/
def shift (c d : Int × Int) : Int × Int := (c.1 + d.1, c.2 + d.2)

/-- An offset is diagonal when both components are nonzero. -/
def isDiagonal (d : Int × Int) : Bool := d.1 != 0 && d.2 != 0

/-- Room coordinate of a global tile (floor division by the room
width 50). -/
def roomOf (c : Int × Int) : Int × Int := (Int.fdiv c.1 50, Int.fdiv c.2 50)

/-- Global tile of a local coordinate inside a room. -/
def globalOf (room : Int × Int) (x y : Nat) : Int × Int :=
  (room.1 * 50 + x, room.2 * 50 + y)

end Grid

/-! ## BFS distance map, mono flow field and path reconstruction

Modelled from the spec: the WASM implementations of
`bfsMultiroomDistanceMap`, `toMonoFlowField` and `pathToOrigin` are not
in the TypeScript sources.  The spec states that BFS produces optimal
(minimal step count) distances over the traversable region, that the
mono flow field picks, by a fixed direction order, one neighbour whose
distance is strictly smaller, and that `pathToOrigin` repeatedly follows
the flow field from the destination until an origin (distance 0) is
reached. -/

namespace Field

/-- Modelled from the spec: a BFS query: the traversable region (the
composition of the cost-matrix callback with the impassable checks), the
single start position, and a search horizon `bound` strictly larger
than every distance of interest. -/
structure Scenario where
  allowed : Int × Int → Bool
  start : Int × Int
  bound : Nat

/-- Modelled from the spec: one legal BFS step from `a` to `b`: the
tiles are grid-adjacent, the target is traversable, and a diagonal step
is allowed only when at least one of the two orthogonal corner tiles is
traversable (the corner-cutting rule). -/
def stepOk (S : Scenario) (a b : Int × Int) : Bool :=
  (Grid.cheb a b == 1) && S.allowed b &&
    (!((a.1 - b.1).natAbs == 1 && (a.2 - b.2).natAbs == 1) ||
      (S.allowed (a.1, b.2) || S.allowed (b.1, a.2)))

/-- Helper: `c` is reachable from the start in at most `n` legal
steps. -/
def reachIn (S : Scenario) : Nat → (Int × Int) → Bool
  | 0, c => c == S.start
  | n + 1, c =>
    reachIn S n c ||
      Grid.deltas.any (fun d =>
        stepOk S (Grid.shift c d) c && reachIn S n (Grid.shift c d))

/-- Least `m < n` satisfying the predicate, scanning upward from 0. -/
def firstSat (p : Nat → Bool) : Nat → Option Nat
  | 0 => none
  | n + 1 =>
    match firstSat p n with
    | some m => some m
    | none => if p n then some n else none

/-- Modelled from the spec: the BFS multiroom distance map value at a
tile: the minimal number of steps from the start, `none` when the tile
is unreached (the unreached sentinel). -/
def dist (S : Scenario) (c : Int × Int) : Option Nat :=
  firstSat (fun n => reachIn S n c) S.bound

/-- Helper for the mono flow field: the neighbour of `c` in direction
`del` when it is reached, one legal step away and strictly closer than
`D`. -/
def flowCand (S : Scenario) (D : Nat) (c del : Int × Int) : Option (Int × Int) :=
  (dist S (Grid.shift c del)).bind (fun e =>
    if stepOk S c (Grid.shift c del) && decide (e < D) then some (Grid.shift c del)
    else none)

/-- Modelled from the spec: the mono flow field at a tile: among the
neighbours reachable by one legal step whose distance is strictly
smaller, the first in the fixed direction order; `none` at the origin
and on unreached tiles. -/
def monoFlowStep (S : Scenario) (c : Int × Int) : Option (Int × Int) :=
  match dist S c with
  | none => none
  | some 0 => none
  | some d => Grid.deltas.findSome? (flowCand S d c)

/-- Modelled from the spec: `pathToOrigin` on a mono flow field: start
at the destination and repeatedly follow the flow direction until the
origin is reached (or the flow gives no direction); the fuel argument
only bounds the recursion and is chosen at least as large as the
destination's distance. -/
def pathToOrigin (S : Scenario) : Nat → (Int × Int) → List (Int × Int)
  | 0, c => [c]
  | fuel + 1, c =>
    match monoFlowStep S c with
    | none => [c]
    | some a => c :: pathToOrigin S fuel a

/-- Walk certificate: `walkCheck S c l` checks that `l` lists the
predecessors of `c` in order back to the start, each pair being one
legal step. -/
def walkCheck (S : Scenario) : (Int × Int) → List (Int × Int) → Bool
  | c, [] => c == S.start
  | c, a :: rest => stepOk S a c && walkCheck S a rest

/-- Room names supplied with a cost matrix by the
`multiroomMonoFlowFieldPath` integration test. -/
def testRoomNames : List String := ["W1N1", "W1N2", "W2N2"]

/-- Traversable region of the test: tiles whose room is one of the
three rooms the callback supplies an all-plain matrix for. -/
def testAllowed (c : Int × Int) : Bool :=
  testRoomNames.any (fun nm => RoomName.parseRoomName nm == some (Grid.roomOf c))

/-- Start of the test: tile (25, 25) of room W1N1. -/
def testStart : Int × Int := Grid.globalOf (-2, -2) 25 25

/-- Destination of the test: tile (25, 25) of room W2N2. -/
def testGoal : Int × Int := Grid.globalOf (-3, -3) 25 25

/-- Scenario of the `multiroomMonoFlowFieldPath` integration test. -/
def testScenario : Scenario := ⟨testAllowed, testStart, 7501⟩

/-- Explicit witness walk of 50 steps from the test start to the test
goal, listed as predecessors of the goal: diagonal through room W2N2 to
the corner crossing, then diagonal through room W1N1 to the start. -/
def testWalk : List (Int × Int) :=
  (List.range 24).map (fun k => ((-124 : Int) + k, (-124 : Int) + k)) ++
    (List.range 26).map (fun k => ((-100 : Int) + k, (-100 : Int) + k))

/-- Small scenario used to exercise the path reconstruction lemmas on a
concrete input: a 3 by 3 traversable block around the origin. -/
def tinyScenario : Scenario :=
  ⟨fun c => c.1.natAbs ≤ 1 && c.2.natAbs ≤ 1, (0, 0), 5⟩

end Field

/-! ## The search engine

Modelled from the spec: the WASM search engines (`js_astar_path_heap`,
`js_astar_path_numeric`, `js_astar_path_standard`, the Dijkstra and BFS
multiroom distance maps) are not in the TypeScript sources.  All of
them are frontier-expansion searches over the same neighbour relation:
starting from the settled start, each operation settles one unsettled
frontier node minimising accumulated cost plus heuristic; the variants
differ only in the frontier data structure, i.e. in which minimal
element is popped first.  The engine below is parameterised by the
neighbour function, the heuristic, and the pop-minimum selection
function, so each variant is an instantiation. -/

namespace Engine

variable {V : Type} [DecidableEq V]

/-- State of a search: the settled nodes with their final costs, in
settle order. -/
structure SearchState (V : Type) where
  settled : List (V × Nat)

/-- Cost recorded for `v` in an association list. -/
def lookupCost (v : V) : List (V × Nat) → Option Nat
  | [] => none
  | (u, d) :: rest => if v = u then some d else lookupCost v rest

/-- Frontier of a state: for every settled node and every neighbour not
yet settled, the candidate (neighbour, settled cost + edge cost). -/
def cands (nbrs : V → List (V × Nat)) (st : SearchState V) : List (V × Nat) :=
  st.settled.flatMap (fun ud =>
    (nbrs ud.1).filterMap (fun vw =>
      if lookupCost vw.1 st.settled = none then some (vw.1, ud.2 + vw.2) else none))

/-- Fold selecting an element of minimal priority; `tieKeepNew` decides
whether a later element displaces an equal-priority earlier one. -/
def foldMinBy {α : Type} (tieKeepNew : Bool) : (α × Nat) → List (α × Nat) → (α × Nat)
  | cur, [] => cur
  | cur, x :: rest =>
    if x.2 < cur.2 || (tieKeepNew && x.2 == cur.2) then foldMinBy tieKeepNew x rest
    else foldMinBy tieKeepNew cur rest

/-- Modelled from the spec: the binary-heap frontier pop: the earliest
inserted element of minimal priority. -/
def selHeap {α : Type} : List (α × Nat) → Option α
  | [] => none
  | x :: rest => some (foldMinBy false x rest).1

/-- Modelled from the spec: the bucketed/numeric frontier pop: a minimal
element, here the latest inserted one of minimal priority. -/
def selNumeric {α : Type} : List (α × Nat) → Option α
  | [] => none
  | x :: rest => some (foldMinBy true x rest).1

/-- Modelled from the spec: the standard frontier pop: scan for the
minimal priority, then take the first element carrying it. -/
def selStandard {α : Type} (l : List (α × Nat)) : Option α :=
  match l.map (fun x => x.2) with
  | [] => none
  | p :: ps =>
    let best := ps.foldl min p
    (l.find? (fun x => x.2 == best)).map (fun x => x.1)

/-- A goal is found when some goal node is settled. -/
def goalFound (gs : List V) (st : SearchState V) : Bool :=
  gs.any (fun g => (lookupCost g st.settled).isSome)

/-- One operation: pop a frontier candidate of minimal cost plus
heuristic and settle it. -/
def stepSearch (nbrs : V → List (V × Nat)) (h : V → Nat)
    (sel : List ((V × Nat) × Nat) → Option (V × Nat)) (st : SearchState V) :
    Option (SearchState V) :=
  (sel ((cands nbrs st).map (fun c => (c, c.2 + h c.1)))).map
    (fun c => ⟨st.settled ++ [c]⟩)

/-- Modelled from the spec: the budgeted search loop: stop as soon as a
goal is settled, the tile ceiling is reached, the frontier is empty, or
the operation budget (the fuel) is exhausted; otherwise perform one
operation and continue. -/
def runSearch (nbrs : V → List (V × Nat)) (h : V → Nat)
    (sel : List ((V × Nat) × Nat) → Option (V × Nat)) (gs : List V) (maxTiles : Nat) :
    Nat → SearchState V → SearchState V
  | 0, st => st
  | fuel + 1, st =>
    if goalFound gs st || decide (maxTiles ≤ st.settled.length) then st
    else
      match stepSearch nbrs h sel st with
      | none => st
      | some st2 => runSearch nbrs h sel gs maxTiles fuel st2

/-- Initial state: the start settled at cost 0. -/
def initState (s : V) : SearchState V := ⟨[(s, 0)]⟩

/-- Walks in the neighbour graph from a fixed source and their
accumulated cost. -/
inductive WalkCost (nbrs : V → List (V × Nat)) (s : V) : V → Nat → Prop where
  | nil : WalkCost nbrs s s 0
  | cons {u v : V} {c w : Nat} :
      WalkCost nbrs s u c → (v, w) ∈ nbrs u → WalkCost nbrs s v (c + w)

/-- Being the least walk cost between two nodes. -/
def IsLeastCost (nbrs : V → List (V × Nat)) (s v : V) (d : Nat) : Prop :=
  WalkCost nbrs s v d ∧ ∀ c, WalkCost nbrs s v c → d ≤ c

/-- Contract of a pop-minimum selection function: it fails only on the
empty frontier and returns an element of minimal priority. -/
structure SelSpec {α : Type} (sel : List (α × Nat) → Option α) : Prop where
  none_eq : ∀ l, sel l = none → l = []
  mem_min : ∀ l x, sel l = some x → ∃ p, (x, p) ∈ l ∧ ∀ yq ∈ l, p ≤ yq.2

/-- Consistency of a heuristic for a neighbour function. -/
def Consistent (nbrs : V → List (V × Nat)) (h : V → Nat) : Prop :=
  ∀ u vw, vw ∈ nbrs u → h u ≤ vw.2 + h vw.1

/-- Invariant of a search state: every settled entry carries the least
walk cost from the start, settled keys are distinct, and the start is
settled at cost 0. -/
structure Inv (nbrs : V → List (V × Nat)) (s : V) (st : SearchState V) : Prop where
  correct : ∀ vd ∈ st.settled, IsLeastCost nbrs s vd.1 vd.2
  keys_nodup : (st.settled.map Prod.fst).Nodup
  start_mem : (s, 0) ∈ st.settled

end Engine

/-! ## Single-room engine instantiations (the astar_path variants)

The wrapper `astar_path` runs the heap, plain, numeric and standard A*
path searches plus the Dijkstra and BFS distance maps over the same
query.  Here the engine is instantiated on one 50 by 50 room with an
effective cost matrix `cm`: `none` is the impassable sentinel (255) and
`some w` the cost of entering the tile. -/

namespace Room

/-- Number of tiles of one room (50 by 50). -/
def roomTileCount : Nat := 2500

/-- All 2500 tile coordinates of one room. -/
def posNodes : List (Nat × Nat) :=
  (List.range 50).flatMap (fun x => (List.range 50).map (fun y => (x, y)))

/-- Bounds-checked shift of a local tile by an offset. -/
def shiftP (p : Nat × Nat) (d : Int × Int) : Option (Nat × Nat) :=
  let nx : Int := (p.1 : Int) + d.1
  let ny : Int := (p.2 : Int) + d.2
  if 0 ≤ nx ∧ nx < 50 ∧ 0 ≤ ny ∧ ny < 50 then some (nx.toNat, ny.toNat) else none

/-- A tile is passable when the cost matrix has a non-sentinel value. -/
def passable (cm : Nat × Nat → Option Nat) (p : Nat × Nat) : Bool := (cm p).isSome

/-- Modelled from the spec: the weighted neighbour relation of the
search engines on one room: each in-bounds passable neighbour with the
cost of entering it, diagonal steps subject to the corner-cutting
rule. -/
def gridNbrs (cm : Nat × Nat → Option Nat) (p : Nat × Nat) : List ((Nat × Nat) × Nat) :=
  Grid.deltas.filterMap (fun d =>
    (shiftP p d).bind (fun q =>
      (cm q).bind (fun w =>
        if Grid.isDiagonal d then
          if passable cm (p.1, q.2) || passable cm (q.1, p.2) then some (q, w) else none
        else some (q, w))))

/-- Modelled from the spec: the BFS neighbour relation: the same
adjacency with every edge at unit cost (BFS is the uniform-cost flood
fill). -/
def unitNbrs (cm : Nat × Nat → Option Nat) (p : Nat × Nat) : List ((Nat × Nat) × Nat) :=
  (gridNbrs cm p).map (fun vw => (vw.1, 1))

/-- Chebyshev heuristic towards the goal. -/
def chebHeur (g p : Nat × Nat) : Nat :=
  Grid.cheb ((p.1 : Int), (p.2 : Int)) ((g.1 : Int), (g.2 : Int))

/-- Cost reported at the goal by a completed engine run (fuel and tile
ceiling both beyond the room size, so only natural termination
applies). -/
def engineCost (nbrs : (Nat × Nat) → List ((Nat × Nat) × Nat)) (h : Nat × Nat → Nat)
    (sel : List (((Nat × Nat) × Nat) × Nat) → Option ((Nat × Nat) × Nat))
    (s g : Nat × Nat) : Option Nat :=
  Engine.lookupCost g
    (Engine.runSearch nbrs h sel [g] (roomTileCount + 2) (roomTileCount + 2)
      (Engine.initState s)).settled

/-- Modelled from the spec: the Dijkstra engine: weighted costs, no
heuristic, heap frontier. -/
def dijkstra_cost (cm : Nat × Nat → Option Nat) (s g : Nat × Nat) : Option Nat :=
  engineCost (gridNbrs cm) (fun _ => 0) Engine.selHeap s g

/-- Modelled from the spec: the BFS engine: unit costs, no heuristic,
first-in frontier. -/
def bfs_cost (cm : Nat × Nat → Option Nat) (s g : Nat × Nat) : Option Nat :=
  engineCost (unitNbrs cm) (fun _ => 0) Engine.selHeap s g

/-- Modelled from the spec: the heap-frontier A* variant
(js_astar_path_heap). -/
def astar_heap_cost (cm : Nat × Nat → Option Nat) (s g : Nat × Nat) : Option Nat :=
  engineCost (gridNbrs cm) (chebHeur g) Engine.selHeap s g

/-- Modelled from the spec: the numeric-frontier A* variant
(js_astar_path_numeric). -/
def astar_numeric_cost (cm : Nat × Nat → Option Nat) (s g : Nat × Nat) : Option Nat :=
  engineCost (gridNbrs cm) (chebHeur g) Engine.selNumeric s g

/-- Modelled from the spec: the standard A* variant
(js_astar_path_standard). -/
def astar_standard_cost (cm : Nat × Nat → Option Nat) (s g : Nat × Nat) : Option Nat :=
  engineCost (gridNbrs cm) (chebHeur g) Engine.selStandard s g

/-- Counterexample cost matrix: only tiles (0,0) (plain, cost 1) and
(1,0) (swamp, cost 5) are passable. -/
def cmSwamp : Nat × Nat → Option Nat := fun p =>
  if p = (0, 0) then some 1 else if p = (1, 0) then some 5 else none

/-- Uniform witness cost matrix: tiles (0,0), (1,0) and (2,0) passable
at cost 1, everything else impassable. -/
def cmUnit : Nat × Nat → Option Nat := fun p =>
  if p = (0, 0) ∨ p = (1, 0) ∨ p = (2, 0) then some 1 else none

end Room

/-! ## Multiroom budgeted query facade (C3, C5)

Modelled from the spec: the multiroom point-to-point query: validate the
goal list, run the budgeted engine over the region allowed by
`maxRoomDistance`, and package the distance field, path, cost and
`incomplete` flag.  Environment conditions (impassable start, unreached
goal, exhausted budgets) are reported through `incomplete`, never as an
error. -/

namespace Multiroom

/-- A world: the per-room cost-matrix callback, returning `none` for
rooms that are not traversable, composed here directly on global
coordinates. -/
structure World where
  costMatrixCallback : Int × Int → Option ((Int × Int) → Option Nat)

/-- Effective cost of entering a global tile: `none` when the room has
no matrix or the tile carries the impassable sentinel. -/
def costAt (W : World) (c : Int × Int) : Option Nat :=
  match W.costMatrixCallback (Grid.roomOf c) with
  | none => none
  | some m => m c

/-- A tile is traversable when it is inside the explorable region and
its effective cost exists. -/
def passableM (W : World) (region : Int × Int → Bool) (c : Int × Int) : Bool :=
  region c && (costAt W c).isSome

/-- Modelled from the spec: the multiroom neighbour relation restricted
to an explorable region, with the corner-cutting rule. -/
def mrNbrs (W : World) (region : Int × Int → Bool) (p : Int × Int) :
    List ((Int × Int) × Nat) :=
  Grid.deltas.filterMap (fun d =>
    let q := Grid.shift p d
    if region q then
      (costAt W q).bind (fun w =>
        if Grid.isDiagonal d then
          if passableM W region (p.1, q.2) || passableM W region (q.1, p.2) then
            some (q, w)
          else none
        else some (q, w))
    else none)

/-- Region allowed by `maxRoomDistance`: rooms within that Chebyshev
room distance of the origin's room. -/
def regionOf (origin : Int × Int) (maxRoomDistance : Nat) (c : Int × Int) : Bool :=
  Grid.cheb (Grid.roomOf c) (Grid.roomOf origin) ≤ maxRoomDistance

/-- Final state of a budgeted multiroom query. -/
def queryRun (W : World) (origin : Int × Int) (goals : List (Int × Int))
    (maxOps maxTiles maxRoomDistance : Nat) : Engine.SearchState (Int × Int) :=
  Engine.runSearch (mrNbrs W (regionOf origin maxRoomDistance)) (fun _ => 0)
    Engine.selHeap goals maxTiles maxOps (Engine.initState origin)

/-- Incomplete flag of a budgeted multiroom query: no goal settled. -/
def queryIncomplete (W : World) (origin : Int × Int) (goals : List (Int × Int))
    (maxOps maxTiles maxRoomDistance : Nat) : Bool :=
  !(Engine.goalFound goals (queryRun W origin goals maxOps maxTiles maxRoomDistance))

/-- Cost reported by a budgeted multiroom query: the settled cost of
the first settled goal. -/
def queryCost (W : World) (origin : Int × Int) (goals : List (Int × Int))
    (maxOps maxTiles maxRoomDistance : Nat) : Option Nat :=
  goals.findSome? (fun g =>
    Engine.lookupCost g (queryRun W origin goals maxOps maxTiles maxRoomDistance).settled)

/-- Order on reported costs where the absent cost (no path) is the
top element: a smaller-or-equal reported cost is a present cost at most
the other, or the other being absent. -/
def costLE : Option Nat → Option Nat → Prop
  | _, none => True
  | none, some _ => False
  | some a, some b => a ≤ b

/-- Modelled from the spec: walking back from a settled tile along
strictly decreasing settled costs, with the path-length budget as
fuel. -/
def reconstructPath (settled : List ((Int × Int) × Nat)) :
    Nat → (Int × Int) → List (Int × Int)
  | 0, v => [v]
  | f + 1, v =>
    match Engine.lookupCost v settled with
    | none => [v]
    | some 0 => [v]
    | some d =>
      match Grid.deltas.findSome? (fun del =>
        let a := Grid.shift v del
        match Engine.lookupCost a settled with
        | some e => if e < d then some a else none
        | none => none) with
      | none => [v]
      | some a => v :: reconstructPath settled f a

/-- Result of a point-to-point query. -/
structure PathResult where
  path : List (Int × Int)
  cost : Option Nat
  incomplete : Bool
deriving DecidableEq, Repr

/-- Modelled from the spec: result of a validated point-to-point query:
run the budgeted search and, when some goal was settled, reconstruct the
path under the path-length budget, `incomplete` recording whether the
path reached back to an origin; otherwise the empty path with
`incomplete = true`. -/
def pathQueryCore (W : World) (origin : Int × Int) (goals : List (Int × Int))
    (maxOps maxTiles maxRoomDistance maxPathLength : Nat) : PathResult :=
  match goals.findSome? (fun g =>
      (Engine.lookupCost g
        (queryRun W origin goals maxOps maxTiles maxRoomDistance).settled).map
        (fun d => (g, d))) with
  | none => ⟨[], none, true⟩
  | some gd =>
    ⟨reconstructPath (queryRun W origin goals maxOps maxTiles maxRoomDistance).settled
        maxPathLength gd.1,
      some gd.2,
      !(match (reconstructPath
            (queryRun W origin goals maxOps maxTiles maxRoomDistance).settled
            maxPathLength gd.1).getLast? with
        | some v =>
          Engine.lookupCost v
              (queryRun W origin goals maxOps maxTiles maxRoomDistance).settled ==
            some 0
        | none => false)⟩

/-- Modelled from the spec: the point-to-point query facade: an empty
goal list is a contract violation and throws; an impassable or
non-traversable start yields the empty path with `incomplete = true`;
otherwise the budgeted search result is returned. -/
def pathQuery (W : World) (origin : Int × Int) (goals : List (Int × Int))
    (maxOps maxTiles maxRoomDistance maxPathLength : Nat) : Except String PathResult :=
  if goals.isEmpty then .error "At least one destination must be set"
  else if (costAt W origin).isNone then .ok ⟨[], none, true⟩
  else .ok (pathQueryCore W origin goals maxOps maxTiles maxRoomDistance maxPathLength)

/-- Counterexample world for the room-distance limit: in the origin's
room only the origin (0, 25) and the goal (1, 25) are passable; the
neighbouring room to the west is entirely passable. -/
def cexWorld : World :=
  ⟨fun room =>
    if room = (0, 0) then
      some (fun c => if c = (0, 25) ∨ c = (1, 25) then some 1 else none)
    else if room = (-1, 0) then some (fun _ => some 1)
    else none⟩

/-- Origin of the room-distance counterexample. -/
def cexOrigin : Int × Int := (0, 25)

/-- Goal of the room-distance counterexample. -/
def cexGoal : Int × Int := (1, 25)

end Multiroom

/-- Concrete terrain used to instantiate the path-cost theorem: tile 0
is swamp, tile 1 is plain, every other tile is wall. -/
def witnessTerrain : Nat → Terrain := fun n =>
  if n = 0 then .swamp else if n = 1 then .plain else .wall

namespace RoomName

lemma digitChar_isDigit {m : Nat} (hm : m < 10) : (digitChar m).isDigit = true := by
  interval_cases m <;> decide

lemma digitVal_digitChar {m : Nat} (hm : m < 10) : digitVal (digitChar m) = m := by
  interval_cases m <;> decide

lemma natDigitsAux_isDigit {fuel n : Nat} (hn : n < fuel) :
    ∀ c ∈ natDigitsAux fuel n, c.isDigit = true := by
  induction fuel generalizing n with
  | zero => omega
  | succ fuel ih =>
    intro c hc
    rw [natDigitsAux] at hc
    by_cases h10 : n < 10
    · simp only [if_pos h10, List.mem_singleton] at hc
      exact hc ▸ digitChar_isDigit h10
    · simp only [if_neg h10, List.mem_append, List.mem_singleton] at hc
      rcases hc with hc | hc
      · exact ih (by omega : n / 10 < fuel) c hc
      · exact hc ▸ digitChar_isDigit (Nat.mod_lt _ (by omega))

lemma natDigitsAux_ne_nil {fuel n : Nat} (hn : n < fuel) : natDigitsAux fuel n ≠ [] := by
  cases fuel with
  | zero => omega
  | succ fuel =>
    rw [natDigitsAux]
    by_cases h10 : n < 10 <;> simp [h10]

lemma digitsToNat_append_digit (l : List Char) (c : Char) :
    digitsToNat (l ++ [c]) = 10 * digitsToNat l + digitVal c := by
  simp [digitsToNat, List.foldl_append]

lemma digitsToNat_natDigitsAux {fuel n : Nat} (hn : n < fuel) :
    digitsToNat (natDigitsAux fuel n) = n := by
  induction fuel generalizing n with
  | zero => omega
  | succ fuel ih =>
    rw [natDigitsAux]
    by_cases h10 : n < 10
    · simp only [if_pos h10]
      show digitsToNat ([] ++ [digitChar n]) = n
      rw [digitsToNat_append_digit, digitVal_digitChar h10]
      simp [digitsToNat]
    · simp only [if_neg h10]
      rw [digitsToNat_append_digit, ih (by omega : n / 10 < fuel),
        digitVal_digitChar (Nat.mod_lt _ (by omega))]
      omega

lemma natDigits_isDigit (n : Nat) : ∀ c ∈ natDigits n, c.isDigit = true :=
  natDigitsAux_isDigit (Nat.lt_succ_self n)

lemma natDigits_ne_nil (n : Nat) : natDigits n ≠ [] :=
  natDigitsAux_ne_nil (Nat.lt_succ_self n)

lemma digitsToNat_natDigits (n : Nat) : digitsToNat (natDigits n) = n :=
  digitsToNat_natDigitsAux (Nat.lt_succ_self n)

lemma takeWhile_all_append {p : Char → Bool} {A : List Char} (hA : ∀ c ∈ A, p c = true)
    {d : Char} (hd : p d = false) (B : List Char) :
    (A ++ d :: B).takeWhile p = A ∧ (A ++ d :: B).dropWhile p = d :: B := by
  induction A with
  | nil => simp [List.takeWhile_cons, List.dropWhile_cons, hd]
  | cons a A ih =>
    have ha : p a = true := hA a (List.mem_cons_self a A)
    have hrest : ∀ c ∈ A, p c = true := fun c hc => hA c (List.mem_cons_of_mem a hc)
    have ⟨h1, h2⟩ := ih hrest
    simp [List.takeWhile_cons, List.dropWhile_cons, ha, h1, h2]

/-- Core round trip: parsing a canonically formatted room name recovers
the room coordinates. -/
theorem parse_coordToRoomName (x y : Int) :
    parseRoomName (coordToRoomName x y) = some (x, y) := by
  have hdata : (coordToRoomName x y).data =
      (if x < 0 then 'W' else 'E') ::
        (natDigits (if x < 0 then (-(x + 1)).toNat else x.toNat) ++
          (if y < 0 then 'N' else 'S') ::
            natDigits (if y < 0 then (-(y + 1)).toNat else y.toNat)) := rfl
  set xp := if x < 0 then 'W' else 'E' with hxp
  set yp := if y < 0 then 'N' else 'S' with hyp
  set xn := if x < 0 then (-(x + 1)).toNat else x.toNat with hxn
  set yn := if y < 0 then (-(y + 1)).toNat else y.toNat with hyn
  have hypnd : yp.isDigit = false := by
    rw [hyp]; by_cases hy : y < 0 <;> simp [hy]
  have ⟨htw, hdw⟩ := takeWhile_all_append (natDigits_isDigit xn) hypnd (natDigits yn)
  rw [parseRoomName, hdata, parseRoomNameChars]
  have hxpWE : xp = 'W' ∨ xp = 'E' := by
    rw [hxp]; by_cases hx : x < 0 <;> simp [hx]
  rw [if_pos hxpWE]
  simp only [htw, hdw]
  have hcond : natDigits xn ≠ [] ∧ (yp = 'N' ∨ yp = 'S') ∧ natDigits yn ≠ [] ∧
      (natDigits yn).all Char.isDigit = true := by
    refine ⟨natDigits_ne_nil xn, ?_, natDigits_ne_nil yn, ?_⟩
    · rw [hyp]; by_cases hy : y < 0 <;> simp [hy]
    · exact List.all_eq_true.mpr (natDigits_isDigit yn)
  rw [if_pos hcond]
  have hxval : (if xp = 'W' then -(digitsToNat (natDigits xn) : Int) - 1
      else (digitsToNat (natDigits xn) : Int)) = x := by
    rw [digitsToNat_natDigits, hxp, hxn]
    by_cases hx : x < 0 <;> simp [hx] <;> omega
  have hyval : (if yp = 'N' then -(digitsToNat (natDigits yn) : Int) - 1
      else (digitsToNat (natDigits yn) : Int)) = y := by
    rw [digitsToNat_natDigits, hyp, hyn]
    by_cases hy : y < 0 <;> simp [hy] <;> omega
  simp only [hxval, hyval]

end RoomName

/-! ## Grid geometry lemmas -/

namespace Grid

lemma cheb_self (a : Int × Int) : cheb a a = 0 := by
  unfold cheb; omega

lemma cheb_comm (a b : Int × Int) : cheb a b = cheb b a := by
  unfold cheb; omega

lemma cheb_triangle (a b c : Int × Int) : cheb a c ≤ cheb a b + cheb b c := by
  unfold cheb; omega

set_option maxHeartbeats 1600000 in
lemma exists_delta_of_cheb {a c : Int × Int} (h : cheb a c = 1) :
    ∃ d ∈ deltas, shift c d = a := by
  refine ⟨(a.1 - c.1, a.2 - c.2), ?_, ?_⟩
  · unfold cheb at h
    simp only [deltas, List.mem_cons, List.not_mem_nil, or_false, Prod.mk.injEq]
    omega
  · unfold shift
    refine Prod.ext ?_ ?_ <;> simp

end Grid

/-! ## Lemmas about the BFS distance map, flow field and path -/

namespace Field

lemma stepOk_cheb {S : Scenario} {a c : Int × Int} (h : stepOk S a c = true) :
    Grid.cheb a c = 1 := by
  unfold stepOk at h
  simp only [Bool.and_eq_true, beq_iff_eq] at h
  exact h.1.1

lemma stepOk_allowed {S : Scenario} {a c : Int × Int} (h : stepOk S a c = true) :
    S.allowed c = true := by
  unfold stepOk at h
  simp only [Bool.and_eq_true, beq_iff_eq] at h
  exact h.1.2

lemma stepOk_symm {S : Scenario} {a c : Int × Int} (hac : stepOk S a c = true)
    (hall : S.allowed a = true) : stepOk S c a = true := by
  unfold stepOk at hac ⊢
  simp only [Bool.and_eq_true, Bool.or_eq_true, Bool.not_eq_true', beq_iff_eq,
    Bool.and_eq_false_iff] at hac ⊢
  obtain ⟨⟨hcheb, _⟩, hcorner⟩ := hac
  refine ⟨⟨by rw [Grid.cheb_comm]; exact hcheb, hall⟩, ?_⟩
  have h1 : (c.1 - a.1).natAbs = (a.1 - c.1).natAbs := by omega
  have h2 : (c.2 - a.2).natAbs = (a.2 - c.2).natAbs := by omega
  rw [h1, h2]
  rcases hcorner with h | h
  · exact Or.inl h
  · exact Or.inr (Or.symm h)

lemma reachIn_zero {S : Scenario} {c : Int × Int} :
    reachIn S 0 c = true ↔ c = S.start := by
  simp [reachIn]

lemma reachIn_succ_of {S : Scenario} {n : Nat} {c : Int × Int}
    (h : reachIn S n c = true) : reachIn S (n + 1) c = true := by
  rw [reachIn]
  simp [h]

lemma reachIn_mono {S : Scenario} {n m : Nat} {c : Int × Int} (hnm : n ≤ m)
    (h : reachIn S n c = true) : reachIn S m c = true := by
  induction hnm with
  | refl => exact h
  | step _ ih => exact reachIn_succ_of ih

lemma reachIn_step {S : Scenario} {a c : Int × Int} {n : Nat}
    (hstep : stepOk S a c = true) (ha : reachIn S n a = true) :
    reachIn S (n + 1) c = true := by
  rw [reachIn]
  refine Bool.or_eq_true _ _ |>.mpr (Or.inr ?_)
  rw [List.any_eq_true]
  obtain ⟨d, hd, hshift⟩ := Grid.exists_delta_of_cheb (stepOk_cheb hstep)
  exact ⟨d, hd, by rw [hshift]; simp [hstep, ha]⟩

lemma reachIn_cheb {S : Scenario} {n : Nat} {c : Int × Int}
    (h : reachIn S n c = true) : Grid.cheb S.start c ≤ n := by
  induction n generalizing c with
  | zero =>
    rw [reachIn_zero] at h
    subst h
    simp [Grid.cheb_self]
  | succ n ih =>
    rw [reachIn] at h
    rcases Bool.or_eq_true _ _ |>.mp h with h | h
    · exact le_trans (ih h) (Nat.le_succ n)
    · rw [List.any_eq_true] at h
      obtain ⟨d, _, hd⟩ := h
      rw [Bool.and_eq_true] at hd
      calc Grid.cheb S.start c
          ≤ Grid.cheb S.start (Grid.shift c d) + Grid.cheb (Grid.shift c d) c :=
            Grid.cheb_triangle _ _ _
        _ ≤ n + 1 := by
            rw [stepOk_cheb hd.1]
            exact Nat.add_le_add_right (ih hd.2) 1

lemma reachIn_allowed {S : Scenario} (hstart : S.allowed S.start = true) {n : Nat}
    {c : Int × Int} (h : reachIn S n c = true) : S.allowed c = true := by
  induction n generalizing c with
  | zero => rw [reachIn_zero] at h; exact h ▸ hstart
  | succ n ih =>
    rw [reachIn] at h
    rcases Bool.or_eq_true _ _ |>.mp h with h | h
    · exact ih h
    · rw [List.any_eq_true] at h
      obtain ⟨d, _, hd⟩ := h
      rw [Bool.and_eq_true] at hd
      exact stepOk_allowed hd.1

lemma firstSat_none {p : Nat → Bool} {n : Nat} (h : firstSat p n = none) :
    ∀ k < n, p k = false := by
  induction n with
  | zero => omega
  | succ n ih =>
    rw [firstSat] at h
    rcases hf : firstSat p n with _ | m
    · rw [hf] at h
      intro k hk
      rcases Nat.lt_succ_iff_lt_or_eq.mp hk with hk | rfl
      · exact ih hf k hk
      · by_contra hp
        simp [Bool.not_eq_false] at hp
        rw [hp] at h
        exact absurd h (by simp)
    · rw [hf] at h
      exact absurd h (by simp)

lemma firstSat_some {p : Nat → Bool} {n m : Nat} (h : firstSat p n = some m) :
    p m = true ∧ (∀ k < m, p k = false) ∧ m < n := by
  induction n with
  | zero => exact absurd h (by rw [firstSat]; simp)
  | succ n ih =>
    rw [firstSat] at h
    rcases hf : firstSat p n with _ | m2
    · rw [hf] at h
      by_cases hp : p n = true
      · rw [if_pos hp] at h
        obtain rfl : n = m := by injection h
        exact ⟨hp, firstSat_none hf, Nat.lt_succ_self n⟩
      · rw [if_neg hp] at h
        exact absurd h (by simp)
    · rw [hf] at h
      obtain rfl : m2 = m := by injection h
      obtain ⟨h1, h2, h3⟩ := ih hf
      exact ⟨h1, h2, Nat.lt_succ_of_lt h3⟩

lemma firstSat_eq_some {p : Nat → Bool} {n m : Nat} (hp : p m = true)
    (hmin : ∀ k < m, p k = false) (hmn : m < n) : firstSat p n = some m := by
  rcases hf : firstSat p n with _ | m2
  · exact absurd hp (by rw [firstSat_none hf m hmn]; simp)
  · obtain ⟨h1, h2, _⟩ := firstSat_some hf
    have : m2 = m := by
      rcases Nat.lt_trichotomy m2 m with h | h | h
      · exact absurd h1 (by rw [hmin m2 h]; simp)
      · exact h
      · exact absurd hp (by rw [h2 m h]; simp)
    rw [this]

lemma dist_spec {S : Scenario} {c : Int × Int} {d : Nat} (h : dist S c = some d) :
    reachIn S d c = true ∧ (∀ e < d, reachIn S e c = false) ∧ d < S.bound :=
  firstSat_some h

lemma dist_eq_some {S : Scenario} {c : Int × Int} {d : Nat}
    (hr : reachIn S d c = true) (hmin : ∀ e < d, reachIn S e c = false)
    (hb : d < S.bound) : dist S c = some d :=
  firstSat_eq_some hr hmin hb

lemma dist_zero {S : Scenario} {c : Int × Int} (h : dist S c = some 0) :
    c = S.start :=
  reachIn_zero.mp (dist_spec h).1

lemma dist_le_of_step {S : Scenario} {a c : Int × Int} {d e : Nat}
    (hstep : stepOk S a c = true) (ha : dist S a = some e) (hc : dist S c = some d) :
    d ≤ e + 1 := by
  by_contra hlt
  have h1 : reachIn S (e + 1) c = true := reachIn_step hstep (dist_spec ha).1
  have h2 : reachIn S (e + 1) c = false := (dist_spec hc).2.1 (e + 1) (by omega)
  rw [h1] at h2
  exact absurd h2 (by simp)

lemma dist_descent {S : Scenario} {c : Int × Int} {d : Nat}
    (hc : dist S c = some (d + 1)) :
    ∃ a, stepOk S a c = true ∧ dist S a = some d := by
  obtain ⟨hreach, hmin, hb⟩ := dist_spec hc
  rw [reachIn] at hreach
  rcases Bool.or_eq_true _ _ |>.mp hreach with h | h
  · exact absurd h (by rw [hmin d (Nat.lt_succ_self d)]; simp)
  · rw [List.any_eq_true] at h
    obtain ⟨del, _, hdel⟩ := h
    rw [Bool.and_eq_true] at hdel
    set a := Grid.shift c del with ha
    refine ⟨a, hdel.1, ?_⟩
    rcases hda : dist S a with _ | e
    · have := firstSat_none hda d (by omega)
      rw [hdel.2] at this
      exact absurd this (by simp)
    · obtain ⟨hre, hmine, _⟩ := dist_spec hda
      have hed : e ≤ d := by
        by_contra hgt
        have := hmine d (by omega)
        rw [hdel.2] at this
        exact absurd this (by simp)
      have hde : d ≤ e := by
        by_contra hgt
        have h1 : reachIn S (e + 1) c = true := reachIn_step hdel.1 hre
        have h2 : reachIn S (e + 1) c = false := hmin (e + 1) (by omega)
        rw [h1] at h2
        exact absurd h2 (by simp)
      congr 1
      omega

lemma flowCand_some {S : Scenario} {D : Nat} {c del a : Int × Int}
    (h : flowCand S D c del = some a) :
    a = Grid.shift c del ∧ stepOk S c a = true ∧ ∃ e, dist S a = some e ∧ e < D := by
  unfold flowCand at h
  rw [Option.bind_eq_some] at h
  obtain ⟨e, hde, hif⟩ := h
  by_cases hcond : (stepOk S c (Grid.shift c del) && decide (e < D)) = true
  · rw [if_pos hcond] at hif
    obtain rfl : Grid.shift c del = a := by injection hif
    rw [Bool.and_eq_true, decide_eq_true_iff] at hcond
    exact ⟨rfl, hcond.1, e, hde, hcond.2⟩
  · rw [if_neg hcond] at hif
    exact absurd hif (by simp)

lemma monoFlow_of_dist {S : Scenario} (hstart : S.allowed S.start = true)
    {c : Int × Int} {d : Nat} (hc : dist S c = some (d + 1)) :
    ∃ a, monoFlowStep S c = some a ∧ dist S a = some d ∧ stepOk S c a = true := by
  have hallc : S.allowed c = true := reachIn_allowed hstart (dist_spec hc).1
  have hM : monoFlowStep S c = Grid.deltas.findSome? (flowCand S (d + 1) c) := by
    rw [monoFlowStep, hc]
    rfl
  obtain ⟨a0, ha0step, ha0dist⟩ := dist_descent hc
  have ha0all : S.allowed a0 = true :=
    reachIn_allowed hstart (dist_spec ha0dist).1
  have ha0rev : stepOk S c a0 = true := stepOk_symm ha0step ha0all
  obtain ⟨del0, hdel0, hshift0⟩ := Grid.exists_delta_of_cheb (stepOk_cheb ha0step)
  have hf0 : flowCand S (d + 1) c del0 = some a0 := by
    unfold flowCand
    rw [hshift0, ha0dist]
    simp only [Option.some_bind]
    rw [if_pos (by simp [ha0rev])]
  rcases hfind : monoFlowStep S c with _ | a
  · rw [hM, List.findSome?_eq_none_iff] at hfind
    rw [hfind del0 hdel0] at hf0
    exact absurd hf0 (by simp)
  · rw [hM] at hfind
    obtain ⟨del, _, hdel⟩ := List.exists_of_findSome?_eq_some hfind
    obtain ⟨_, hca, e, hde, helt⟩ := flowCand_some hdel
    have hrev : stepOk S a c = true := stepOk_symm hca hallc
    have hd1 : d + 1 ≤ e + 1 := dist_le_of_step hrev hde hc
    have : e = d := by omega
    subst this
    exact ⟨a, rfl, hde, hca⟩

lemma walkCheck_reachIn {S : Scenario} :
    ∀ (l : List (Int × Int)) (c : Int × Int), walkCheck S c l = true →
      reachIn S l.length c = true := by
  intro l
  induction l with
  | nil =>
    intro c h
    rw [walkCheck] at h
    simpa [reachIn] using h
  | cons a rest ih =>
    intro c h
    rw [walkCheck, Bool.and_eq_true] at h
    exact reachIn_step h.1 (ih a h.2)

lemma pathToOrigin_spec {S : Scenario} (hstart : S.allowed S.start = true) :
    ∀ (d : Nat) (c : Int × Int) (fuel : Nat), dist S c = some d → d ≤ fuel →
      (pathToOrigin S fuel c).length = d + 1 ∧
      (pathToOrigin S fuel c).head? = some c ∧
      (pathToOrigin S fuel c).getLast? = some S.start ∧
      (pathToOrigin S fuel c).Chain' (fun a b => Grid.cheb a b = 1) := by
  intro d
  induction d with
  | zero =>
    intro c fuel hc _
    have hcs : c = S.start := dist_zero hc
    have hpath : pathToOrigin S fuel c = [c] := by
      cases fuel with
      | zero => rfl
      | succ f =>
        rw [pathToOrigin]
        have hflow : monoFlowStep S c = none := by rw [monoFlowStep, hc]
        rw [hflow]
    rw [hpath]
    exact ⟨rfl, rfl, by rw [hcs]; rfl, by simp⟩
  | succ d ih =>
    intro c fuel hc hfuel
    obtain ⟨f, rfl⟩ : ∃ f, fuel = f + 1 := ⟨fuel - 1, by omega⟩
    obtain ⟨a, hflow, hda, hca⟩ := monoFlow_of_dist hstart hc
    have hrec : pathToOrigin S (f + 1) c = c :: pathToOrigin S f a := by
      rw [pathToOrigin, hflow]
    obtain ⟨ihlen, ihhead, ihlast, ihchain⟩ := ih a f hda (by omega)
    have hne : pathToOrigin S f a ≠ [] := by
      intro hnil
      rw [hnil] at ihlen
      simp at ihlen
    refine ⟨?_, ?_, ?_, ?_⟩
    · rw [hrec]
      simp [ihlen]
    · rw [hrec]
      rfl
    · rw [hrec]
      cases hp : pathToOrigin S f a with
      | nil => exact absurd hp hne
      | cons x t =>
        rw [List.getLast?_cons_cons, ← hp, ihlast]
    · rw [hrec, List.chain'_cons']
      refine ⟨?_, ihchain⟩
      intro b hb
      rw [ihhead] at hb
      obtain rfl : a = b := by injection hb
      exact stepOk_cheb hca

end Field

/-! ## Engine lemmas -/

namespace Engine

variable {V : Type} [DecidableEq V]

lemma lookupCost_append (v : V) (l1 l2 : List (V × Nat)) :
    lookupCost v (l1 ++ l2) =
      match lookupCost v l1 with
      | some d => some d
      | none => lookupCost v l2 := by
  induction l1 with
  | nil => simp [lookupCost]
  | cons ud l1 ih =>
    rw [List.cons_append, lookupCost, lookupCost]
    by_cases hv : v = ud.1
    · rw [if_pos hv, if_pos hv]
    · rw [if_neg hv, if_neg hv, ih]

lemma lookupCost_eq_none_iff {v : V} {l : List (V × Nat)} :
    lookupCost v l = none ↔ v ∉ l.map Prod.fst := by
  induction l with
  | nil => simp [lookupCost]
  | cons ud l ih =>
    rw [lookupCost]
    by_cases hv : v = ud.1
    · simp [hv]
    · rw [if_neg hv]
      simp [hv, ih]

lemma mem_of_lookupCost {v : V} {l : List (V × Nat)} {d : Nat}
    (h : lookupCost v l = some d) : (v, d) ∈ l := by
  induction l with
  | nil => exact absurd h (by rw [lookupCost]; simp)
  | cons ud l ih =>
    rw [lookupCost] at h
    by_cases hv : v = ud.1
    · rw [if_pos hv] at h
      obtain rfl : ud.2 = d := by injection h
      rw [hv]
      exact List.mem_cons_self _ _
    · rw [if_neg hv] at h
      exact List.mem_cons_of_mem _ (ih h)

lemma lookupCost_ne_none_of_mem {v : V} {l : List (V × Nat)} {d : Nat}
    (h : (v, d) ∈ l) : lookupCost v l ≠ none := by
  rw [Ne, lookupCost_eq_none_iff]
  intro hmem
  exact hmem (List.mem_map_of_mem Prod.fst h)

lemma cands_mem {nbrs : V → List (V × Nat)} {st : SearchState V} {vt : V × Nat} :
    vt ∈ cands nbrs st ↔
      ∃ u du w, (u, du) ∈ st.settled ∧ (vt.1, w) ∈ nbrs u ∧
        lookupCost vt.1 st.settled = none ∧ vt.2 = du + w := by
  unfold cands
  rw [List.mem_flatMap]
  constructor
  · rintro ⟨ud, hud, hmem⟩
    rw [List.mem_filterMap] at hmem
    obtain ⟨vw, hvw, hif⟩ := hmem
    by_cases hlook : lookupCost vw.1 st.settled = none
    · rw [if_pos hlook] at hif
      obtain rfl : (vw.1, ud.2 + vw.2) = vt := by injection hif
      exact ⟨ud.1, ud.2, vw.2, by simpa using hud, by simpa using hvw, hlook, rfl⟩
    · rw [if_neg hlook] at hif
      exact absurd hif (by simp)
  · rintro ⟨u, du, w, hmem, hedge, hlook, hval⟩
    refine ⟨(u, du), hmem, ?_⟩
    rw [List.mem_filterMap]
    refine ⟨(vt.1, w), hedge, ?_⟩
    rw [if_pos hlook]
    rw [show vt = (vt.1, vt.2) from rfl, hval]

lemma consistent_walk {nbrs : V → List (V × Nat)} {h : V → Nat}
    (hcons : Consistent nbrs h) {y v : V} {c : Nat}
    (hw : WalkCost nbrs y v c) : h y ≤ c + h v := by
  induction hw with
  | nil => simp
  | @cons u v2 c2 w _ hedge ih =>
    have h2 : h u ≤ w + h v2 := hcons u (v2, w) hedge
    omega

lemma exists_boundary {nbrs : V → List (V × Nat)} {st : SearchState V} {s v : V}
    {c : Nat} (hw : WalkCost nbrs s v c) (hs : lookupCost s st.settled ≠ none)
    (hv : lookupCost v st.settled = none) :
    ∃ x dx y w c1 c2, lookupCost x st.settled = some dx ∧ (y, w) ∈ nbrs x ∧
      lookupCost y st.settled = none ∧ WalkCost nbrs s x c1 ∧
      WalkCost nbrs y v c2 ∧ c = c1 + w + c2 := by
  induction hw with
  | nil => exact absurd hv hs
  | @cons u v2 c2 w hw2 hedge ih =>
    rcases hu : lookupCost u st.settled with _ | du
    · obtain ⟨x, dx, y, w0, c1p, c2p, h1, h2, h3, h4, h5, h6⟩ := ih hu
      exact ⟨x, dx, y, w0, c1p, c2p + w, h1, h2, h3, h4,
        WalkCost.cons h5 hedge, by omega⟩
    · refine ⟨u, du, v2, w, c2, 0, hu, hedge, hv, hw2, ?_, by omega⟩
      exact WalkCost.nil

lemma foldMinBy_spec {α : Type} (t : Bool) :
    ∀ (l : List (α × Nat)) (cur : α × Nat),
      (foldMinBy t cur l ∈ cur :: l) ∧ (foldMinBy t cur l).2 ≤ cur.2 ∧
        ∀ x ∈ l, (foldMinBy t cur l).2 ≤ x.2 := by
  intro l
  induction l with
  | nil =>
    intro cur
    refine ⟨List.mem_cons_self _ _, le_refl _, ?_⟩
    intro x hx
    exact absurd hx (List.not_mem_nil x)
  | cons x rest ih =>
    intro cur
    rw [foldMinBy]
    by_cases hcond : (x.2 < cur.2 || (t && x.2 == cur.2)) = true
    · rw [if_pos hcond]
      obtain ⟨hmem, hle, hall⟩ := ih x
      have hxcur : x.2 ≤ cur.2 := by
        simp only [Bool.or_eq_true, Bool.and_eq_true, beq_iff_eq,
          decide_eq_true_iff] at hcond
        rcases hcond with h1 | ⟨_, h1⟩ <;> omega
      refine ⟨?_, le_trans hle hxcur, ?_⟩
      · rcases List.mem_cons.mp hmem with heq | hmem2
        · rw [heq]; simp
        · simp [List.mem_cons_of_mem, hmem2]
      · intro y hy
        rcases List.mem_cons.mp hy with rfl | hy2
        · exact hle
        · exact hall y hy2
    · rw [if_neg hcond]
      obtain ⟨hmem, hle, hall⟩ := ih cur
      have hcurx : cur.2 ≤ x.2 := by
        simp only [Bool.or_eq_true, Bool.and_eq_true, beq_iff_eq,
          decide_eq_true_iff, not_or] at hcond
        omega
      refine ⟨?_, hle, ?_⟩
      · rcases List.mem_cons.mp hmem with heq | hmem2
        · rw [heq]; simp
        · simp [List.mem_cons_of_mem, hmem2]
      · intro y hy
        rcases List.mem_cons.mp hy with rfl | hy2
        · exact le_trans hle hcurx
        · exact hall y hy2

lemma selHeap_spec {α : Type} : SelSpec (selHeap (α := α)) := by
  constructor
  · intro l hl
    cases l with
    | nil => rfl
    | cons x rest => exact absurd hl (by rw [selHeap]; simp)
  · intro l x hx
    cases l with
    | nil => exact absurd hx (by rw [selHeap]; simp)
    | cons y rest =>
      rw [selHeap] at hx
      obtain rfl : (foldMinBy false y rest).1 = x := by injection hx
      obtain ⟨hmem, hle, hall⟩ := foldMinBy_spec false rest y
      refine ⟨(foldMinBy false y rest).2, by simpa using hmem, ?_⟩
      intro yq hyq
      rcases List.mem_cons.mp hyq with rfl | hyq2
      · exact hle
      · exact hall yq hyq2

lemma selNumeric_spec {α : Type} : SelSpec (selNumeric (α := α)) := by
  constructor
  · intro l hl
    cases l with
    | nil => rfl
    | cons x rest => exact absurd hl (by rw [selNumeric]; simp)
  · intro l x hx
    cases l with
    | nil => exact absurd hx (by rw [selNumeric]; simp)
    | cons y rest =>
      rw [selNumeric] at hx
      obtain rfl : (foldMinBy true y rest).1 = x := by injection hx
      obtain ⟨hmem, hle, hall⟩ := foldMinBy_spec true rest y
      refine ⟨(foldMinBy true y rest).2, by simpa using hmem, ?_⟩
      intro yq hyq
      rcases List.mem_cons.mp hyq with rfl | hyq2
      · exact hle
      · exact hall yq hyq2

lemma foldl_min_spec :
    ∀ (l : List Nat) (init : Nat),
      (l.foldl min init = init ∨ l.foldl min init ∈ l) ∧ l.foldl min init ≤ init ∧
        ∀ x ∈ l, l.foldl min init ≤ x := by
  intro l
  induction l with
  | nil =>
    intro init
    refine ⟨Or.inl rfl, le_refl _, ?_⟩
    intro x hx
    exact absurd hx (List.not_mem_nil x)
  | cons x rest ih =>
    intro init
    rw [List.foldl_cons]
    obtain ⟨hmem, hle, hall⟩ := ih (min init x)
    refine ⟨?_, le_trans hle (min_le_left _ _), ?_⟩
    · rcases hmem with heq | hmem2
      · rcases Nat.le_total init x with hc | hc
        · exact Or.inl (by rw [heq]; omega)
        · exact Or.inr (by rw [heq]; simp; omega)
      · exact Or.inr (List.mem_cons_of_mem x hmem2)
    · intro y hy
      rcases List.mem_cons.mp hy with rfl | hy2
      · exact le_trans hle (min_le_right _ _)
      · exact hall y hy2

lemma selStandard_cons {α : Type} (x : α × Nat) (rest : List (α × Nat)) :
    selStandard (x :: rest) =
      ((x :: rest).find?
          (fun y => y.2 == (rest.map (fun z => z.2)).foldl min x.2)).map
        (fun y => y.1) := rfl

lemma exists_best {α : Type} (x : α × Nat) (rest : List (α × Nat)) :
    ∃ z ∈ x :: rest, z.2 = (rest.map (fun z => z.2)).foldl min x.2 := by
  obtain ⟨hmem, _, _⟩ := foldl_min_spec (rest.map (fun z => z.2)) x.2
  rcases hmem with heq | hmem2
  · exact ⟨x, List.mem_cons_self x rest, heq.symm⟩
  · rw [List.mem_map] at hmem2
    obtain ⟨z, hz, hz2⟩ := hmem2
    exact ⟨z, List.mem_cons_of_mem x hz, hz2⟩

lemma selStandard_spec {α : Type} : SelSpec (selStandard (α := α)) := by
  constructor
  · intro l hl
    cases l with
    | nil => rfl
    | cons x rest =>
      rw [selStandard_cons] at hl
      rw [Option.map_eq_none'] at hl
      rw [List.find?_eq_none] at hl
      obtain ⟨z, hz, hz2⟩ := exists_best x rest
      exact absurd (by simp [hz2] : (fun y => y.2 == (rest.map (fun z => z.2)).foldl min x.2) z = true)
        (by simpa using hl z hz)
  · intro l v hx
    cases l with
    | nil => exact absurd hx (by rw [show selStandard ([] : List (α × Nat)) = none from rfl]; simp)
    | cons x rest =>
      rw [selStandard_cons] at hx
      rcases hf : (x :: rest).find?
          (fun y => y.2 == (rest.map (fun z => z.2)).foldl min x.2) with _ | z
      · rw [hf] at hx
        exact absurd hx (by simp)
      · rw [hf] at hx
        obtain rfl : z.1 = v := by
          rw [Option.map_eq_some'] at hx
          obtain ⟨z2, hz2, hz3⟩ := hx
          obtain rfl : z = z2 := by injection hz2
          exact hz3
        have hzmem : z ∈ x :: rest := List.mem_of_find?_eq_some hf
        have hzval : z.2 = (rest.map (fun w => w.2)).foldl min x.2 := by
          have := List.find?_some hf
          rwa [beq_iff_eq] at this
        obtain ⟨_, hle, hall⟩ := foldl_min_spec (rest.map (fun w => w.2)) x.2
        refine ⟨z.2, by simpa using hzmem, ?_⟩
        intro yq hyq
        rcases List.mem_cons.mp hyq with rfl | hyq2
        · rw [hzval]; exact hle
        · rw [hzval]
          exact hall yq.2 (List.mem_map_of_mem (fun w => w.2) hyq2)

lemma least_unique {nbrs : V → List (V × Nat)} {s v : V} {d1 d2 : Nat}
    (h1 : IsLeastCost nbrs s v d1) (h2 : IsLeastCost nbrs s v d2) : d1 = d2 :=
  Nat.le_antisymm (h1.2 d2 h2.1) (h2.2 d1 h1.1)

lemma settle_min {nbrs : V → List (V × Nat)} {h : V → Nat}
    {sel : List ((V × Nat) × Nat) → Option (V × Nat)} {s : V}
    (hsel : SelSpec sel) (hcons : Consistent nbrs h) {st : SearchState V}
    (hinv : Inv nbrs s st) {vt : V × Nat}
    (hpick : sel ((cands nbrs st).map (fun c => (c, c.2 + h c.1))) = some vt) :
    lookupCost vt.1 st.settled = none ∧ IsLeastCost nbrs s vt.1 vt.2 := by
  obtain ⟨p, hpmem, hpmin⟩ := hsel.mem_min _ _ hpick
  rw [List.mem_map] at hpmem
  obtain ⟨cand, hcand, heq⟩ := hpmem
  rw [Prod.mk.injEq] at heq
  obtain ⟨rfl, rfl⟩ := heq
  obtain ⟨u, du, w, humem, hedge, hlook, hval⟩ := cands_mem.mp hcand
  refine ⟨hlook, ?_, ?_⟩
  · have hwu : WalkCost nbrs s u du := (hinv.correct (u, du) humem).1
    rw [hval]
    exact WalkCost.cons hwu hedge
  · intro c hwc
    obtain ⟨x, dx, y, w0, c1, c2, hx, hedge2, hy, hwx, hwy, hcsum⟩ :=
      exists_boundary hwc (lookupCost_ne_none_of_mem hinv.start_mem) hlook
    have hdxle : dx ≤ c1 := (hinv.correct (x, dx) (mem_of_lookupCost hx)).2 c1 hwx
    have hycand : ((y, dx + w0) : V × Nat) ∈ cands nbrs st :=
      cands_mem.mpr ⟨x, dx, w0, mem_of_lookupCost hx, hedge2, hy, rfl⟩
    have hymem : (((y, dx + w0), (dx + w0) + h y) : (V × Nat) × Nat) ∈
        (cands nbrs st).map (fun c => (c, c.2 + h c.1)) :=
      List.mem_map_of_mem _ hycand
    have hple := hpmin _ hymem
    simp only [] at hple
    have hcw : h y ≤ c2 + h (cand.1) := consistent_walk hcons hwy
    omega

lemma stepSearch_eq_some {nbrs : V → List (V × Nat)} {h : V → Nat}
    {sel : List ((V × Nat) × Nat) → Option (V × Nat)} {st st2 : SearchState V}
    (hstep : stepSearch nbrs h sel st = some st2) :
    ∃ vt, sel ((cands nbrs st).map (fun c => (c, c.2 + h c.1))) = some vt ∧
      st2.settled = st.settled ++ [vt] := by
  unfold stepSearch at hstep
  rw [Option.map_eq_some'] at hstep
  obtain ⟨vt, hvt, hst2⟩ := hstep
  exact ⟨vt, hvt, by rw [← hst2]⟩

lemma inv_init (nbrs : V → List (V × Nat)) (s : V) : Inv nbrs s (initState s) := by
  refine ⟨?_, by simp [initState], by simp [initState]⟩
  intro vd hvd
  simp only [initState, List.mem_singleton] at hvd
  subst hvd
  exact ⟨WalkCost.nil, fun c _ => Nat.zero_le c⟩

lemma inv_step {nbrs : V → List (V × Nat)} {h : V → Nat}
    {sel : List ((V × Nat) × Nat) → Option (V × Nat)} {s : V}
    (hsel : SelSpec sel) (hcons : Consistent nbrs h) {st st2 : SearchState V}
    (hinv : Inv nbrs s st) (hstep : stepSearch nbrs h sel st = some st2) :
    Inv nbrs s st2 := by
  obtain ⟨vt, hpick, hset⟩ := stepSearch_eq_some hstep
  obtain ⟨hunset, hleast⟩ := settle_min hsel hcons hinv hpick
  refine ⟨?_, ?_, ?_⟩
  · intro vd hvd
    rw [hset, List.mem_append, List.mem_singleton] at hvd
    rcases hvd with hvd | rfl
    · exact hinv.correct vd hvd
    · exact hleast
  · rw [hset, List.map_append, List.nodup_append]
    refine ⟨hinv.keys_nodup, by simp, ?_⟩
    intro k hk hk2
    simp only [List.map_cons, List.map_nil, List.mem_singleton] at hk2
    subst hk2
    exact absurd hk (by rwa [← lookupCost_eq_none_iff])
  · rw [hset, List.mem_append]
    exact Or.inl hinv.start_mem

lemma goalFound_of_runSearch_eq {nbrs : V → List (V × Nat)} {h : V → Nat}
    {sel : List ((V × Nat) × Nat) → Option (V × Nat)} {gs : List V} {maxTiles : Nat}
    {st : SearchState V} (hfound : goalFound gs st = true) (fuel : Nat) :
    runSearch nbrs h sel gs maxTiles fuel st = st := by
  cases fuel with
  | zero => rfl
  | succ fuel =>
    rw [runSearch, if_pos]
    rw [Bool.or_eq_true]
    exact Or.inl hfound

lemma runSearch_inv {nbrs : V → List (V × Nat)} {h : V → Nat}
    {sel : List ((V × Nat) × Nat) → Option (V × Nat)} {gs : List V} {s : V}
    (hsel : SelSpec sel) (hcons : Consistent nbrs h) {maxTiles : Nat} :
    ∀ (fuel : Nat) (st : SearchState V), Inv nbrs s st →
      Inv nbrs s (runSearch nbrs h sel gs maxTiles fuel st) := by
  intro fuel
  induction fuel with
  | zero => exact fun st hinv => hinv
  | succ fuel ih =>
    intro st hinv
    rw [runSearch]
    by_cases hstop : (goalFound gs st || decide (maxTiles ≤ st.settled.length)) = true
    · rw [if_pos hstop]
      exact hinv
    · rw [if_neg hstop]
      rcases hstep : stepSearch nbrs h sel st with _ | st2
      · exact hinv
      · exact ih st2 (inv_step hsel hcons hinv hstep)

lemma runSearch_lookup_mono {nbrs : V → List (V × Nat)} {h : V → Nat}
    {sel : List ((V × Nat) × Nat) → Option (V × Nat)} {gs : List V}
    {maxTiles : Nat} {v : V} {d : Nat} :
    ∀ (fuel : Nat) (st : SearchState V), lookupCost v st.settled = some d →
      lookupCost v (runSearch nbrs h sel gs maxTiles fuel st).settled = some d := by
  intro fuel
  induction fuel with
  | zero => exact fun st hl => hl
  | succ fuel ih =>
    intro st hl
    rw [runSearch]
    by_cases hstop : (goalFound gs st || decide (maxTiles ≤ st.settled.length)) = true
    · rw [if_pos hstop]
      exact hl
    · rw [if_neg hstop]
      rcases hstep : stepSearch nbrs h sel st with _ | st2
      · exact hl
      · refine ih st2 ?_
        obtain ⟨vt, _, hset⟩ := stepSearch_eq_some hstep
        rw [hset, lookupCost_append, hl]

lemma length_le_of_nodup_subset {l1 l2 : List V} (h1 : l1.Nodup) (hsub : l1 ⊆ l2) :
    l1.length ≤ l2.length := by
  calc l1.length = l1.toFinset.card := (List.toFinset_card_of_nodup h1).symm
    _ ≤ l2.toFinset.card := Finset.card_le_card (fun x hx => by
        rw [List.mem_toFinset] at hx ⊢
        exact hsub hx)
    _ ≤ l2.length := l2.toFinset_card_le

lemma run_terminal {nbrs : V → List (V × Nat)} {h : V → Nat}
    {sel : List ((V × Nat) × Nat) → Option (V × Nat)} {gs : List V} {s : V}
    {nodes : List V} (hsel : SelSpec sel)
    (hclosed : ∀ u vw, vw ∈ nbrs u → vw.1 ∈ nodes) :
    ∀ (fuel : Nat) (st : SearchState V),
      (st.settled.map Prod.fst).Nodup →
      st.settled.map Prod.fst ⊆ s :: nodes →
      nodes.length + 2 ≤ fuel + st.settled.length →
      goalFound gs (runSearch nbrs h sel gs (nodes.length + 2) fuel st) = true ∨
        stepSearch nbrs h sel
          (runSearch nbrs h sel gs (nodes.length + 2) fuel st) = none := by
  intro fuel
  induction fuel with
  | zero =>
    intro st hnd hsub hcount
    have hlen : st.settled.length ≤ nodes.length + 1 := by
      have := length_le_of_nodup_subset hnd hsub
      rw [List.length_map] at this
      simpa using this
    omega
  | succ fuel ih =>
    intro st hnd hsub hcount
    have hlen : st.settled.length ≤ nodes.length + 1 := by
      have := length_le_of_nodup_subset hnd hsub
      rw [List.length_map] at this
      simpa using this
    rw [runSearch]
    by_cases hgoal : goalFound gs st = true
    · rw [if_pos (by rw [Bool.or_eq_true]; exact Or.inl hgoal)]
      exact Or.inl hgoal
    · have hcond : (goalFound gs st ||
          decide (nodes.length + 2 ≤ st.settled.length)) = false := by
        rw [Bool.or_eq_false_iff]
        exact ⟨by simpa using hgoal, by simp; omega⟩
      rw [if_neg (by rw [hcond]; simp)]
      rcases hstep : stepSearch nbrs h sel st with _ | st2
      · exact Or.inr hstep
      · obtain ⟨vt, hpick, hset⟩ := stepSearch_eq_some hstep
        obtain ⟨p, hpmem, _⟩ := hsel.mem_min _ _ hpick
        rw [List.mem_map] at hpmem
        obtain ⟨cand, hcand, heq⟩ := hpmem
        rw [Prod.mk.injEq] at heq
        obtain ⟨rfl, rfl⟩ := heq
        obtain ⟨u, du, w, _, hedge, hlook, _⟩ := cands_mem.mp hcand
        refine ih st2 ?_ ?_ ?_
        · rw [hset, List.map_append, List.nodup_append]
          refine ⟨hnd, by simp, ?_⟩
          intro k hk hk2
          simp only [List.map_cons, List.map_nil, List.mem_singleton] at hk2
          subst hk2
          exact absurd hk (by rwa [← lookupCost_eq_none_iff])
        · rw [hset, List.map_append]
          intro k hk
          rw [List.mem_append] at hk
          rcases hk with hk | hk
          · exact hsub hk
          · simp only [List.map_cons, List.map_nil, List.mem_singleton] at hk
            subst hk
            exact List.mem_cons_of_mem s (hclosed u (cand.1, w) hedge)
        · rw [hset, List.length_append]
          simp
          omega

lemma cands_nil_no_walk {nbrs : V → List (V × Nat)} {st : SearchState V} {s v : V}
    (hcands : cands nbrs st = []) (hs : lookupCost s st.settled ≠ none)
    (hv : lookupCost v st.settled = none) : ∀ c, ¬ WalkCost nbrs s v c := by
  intro c hwc
  obtain ⟨x, dx, y, w0, c1, c2, hx, hedge2, hy, _, _, _⟩ :=
    exists_boundary hwc hs hv
  have : ((y, dx + w0) : V × Nat) ∈ cands nbrs st :=
    cands_mem.mpr ⟨x, dx, w0, mem_of_lookupCost hx, hedge2, hy, rfl⟩
  rw [hcands] at this
  exact absurd this (List.not_mem_nil _)

lemma engineRun_correct {nbrs : V → List (V × Nat)} {h : V → Nat}
    {sel : List ((V × Nat) × Nat) → Option (V × Nat)} {s g : V} {nodes : List V}
    (hsel : SelSpec sel) (hcons : Consistent nbrs h)
    (hclosed : ∀ u vw, vw ∈ nbrs u → vw.1 ∈ nodes) :
    (∀ c, lookupCost g (runSearch nbrs h sel [g] (nodes.length + 2)
        (nodes.length + 2) (initState s)).settled = some c →
      IsLeastCost nbrs s g c) ∧
    (lookupCost g (runSearch nbrs h sel [g] (nodes.length + 2)
        (nodes.length + 2) (initState s)).settled = none →
      ∀ c, ¬ WalkCost nbrs s g c) := by
  have hinv : Inv nbrs s (runSearch nbrs h sel [g] (nodes.length + 2)
      (nodes.length + 2) (initState s)) :=
    runSearch_inv hsel hcons _ _ (inv_init nbrs s)
  constructor
  · intro c hl
    exact hinv.correct (g, c) (mem_of_lookupCost hl)
  · intro hl
    have hterm : goalFound [g] (runSearch nbrs h sel [g] (nodes.length + 2)
          (nodes.length + 2) (initState s)) = true ∨
        stepSearch nbrs h sel (runSearch nbrs h sel [g] (nodes.length + 2)
          (nodes.length + 2) (initState s)) = none :=
      run_terminal (h := h) (s := s) hsel hclosed (nodes.length + 2) (initState s)
        (by simp [initState]) (by simp [initState]) (by simp [initState])
    rcases hterm with hterm | hterm
    · rw [goalFound] at hterm
      simp only [List.any_cons, List.any_nil, Bool.or_false] at hterm
      rw [hl] at hterm
      exact absurd hterm (by simp)
    · unfold stepSearch at hterm
      rw [Option.map_eq_none'] at hterm
      have hmapnil := hsel.none_eq _ hterm
      rw [List.map_eq_nil_iff] at hmapnil
      exact cands_nil_no_walk hmapnil
        (lookupCost_ne_none_of_mem hinv.start_mem) hl

lemma engineRun_agree {nbrs : V → List (V × Nat)} {h1 h2 : V → Nat}
    {sel1 sel2 : List ((V × Nat) × Nat) → Option (V × Nat)} {s g : V}
    {nodes : List V} (hsel1 : SelSpec sel1) (hcons1 : Consistent nbrs h1)
    (hsel2 : SelSpec sel2) (hcons2 : Consistent nbrs h2)
    (hclosed : ∀ u vw, vw ∈ nbrs u → vw.1 ∈ nodes) :
    lookupCost g (runSearch nbrs h1 sel1 [g] (nodes.length + 2)
      (nodes.length + 2) (initState s)).settled =
    lookupCost g (runSearch nbrs h2 sel2 [g] (nodes.length + 2)
      (nodes.length + 2) (initState s)).settled := by
  obtain ⟨hc1, hn1⟩ := engineRun_correct (s := s) (g := g) hsel1 hcons1 hclosed
  obtain ⟨hc2, hn2⟩ := engineRun_correct (s := s) (g := g) hsel2 hcons2 hclosed
  rcases hl1 : lookupCost g (runSearch nbrs h1 sel1 [g] (nodes.length + 2)
      (nodes.length + 2) (initState s)).settled with _ | c1
  · rcases hl2 : lookupCost g (runSearch nbrs h2 sel2 [g] (nodes.length + 2)
        (nodes.length + 2) (initState s)).settled with _ | c2
    · rfl
    · exact absurd (hc2 c2 hl2).1 (hn1 hl1 c2)
  · rcases hl2 : lookupCost g (runSearch nbrs h2 sel2 [g] (nodes.length + 2)
        (nodes.length + 2) (initState s)).settled with _ | c2
    · exact absurd (hc1 c1 hl1).1 (hn2 hl2 c1)
    · rw [least_unique (hc1 c1 hl1) (hc2 c2 hl2)]

end Engine

/-! ## Room instantiation lemmas -/

namespace Room

lemma mem_posNodes {p : Nat × Nat} : p ∈ posNodes ↔ p.1 < 50 ∧ p.2 < 50 := by
  unfold posNodes
  rw [List.mem_flatMap]
  constructor
  · rintro ⟨x, hx, hp⟩
    rw [List.mem_map] at hp
    obtain ⟨y, hy, rfl⟩ := hp
    rw [List.mem_range] at hx hy
    exact ⟨hx, hy⟩
  · rintro ⟨h1, h2⟩
    refine ⟨p.1, List.mem_range.mpr h1, ?_⟩
    rw [List.mem_map]
    exact ⟨p.2, List.mem_range.mpr h2, rfl⟩

lemma posNodes_nodup : posNodes.Nodup := by
  have hprod : posNodes = (List.range 50) ×ˢ (List.range 50) := rfl
  rw [hprod]
  exact List.Nodup.product (List.nodup_range 50) (List.nodup_range 50)

lemma posNodes_length : posNodes.length = roomTileCount := by
  unfold posNodes roomTileCount
  rw [List.length_flatMap]
  have h : (List.length ∘ fun x : Nat => List.map (fun y => (x, y)) (List.range 50)) =
      fun _ : Nat => 50 := by
    funext x
    simp
  rw [h, List.map_const']
  simp [List.sum_replicate]

lemma delta_bounds : ∀ d ∈ Grid.deltas,
    d.1.natAbs ≤ 1 ∧ d.2.natAbs ≤ 1 ∧ ¬(d.1 = 0 ∧ d.2 = 0) := by decide

lemma shiftP_some {p : Nat × Nat} {d : Int × Int} {q : Nat × Nat}
    (h : shiftP p d = some q) :
    (q.1 : Int) = (p.1 : Int) + d.1 ∧ (q.2 : Int) = (p.2 : Int) + d.2 ∧
      q.1 < 50 ∧ q.2 < 50 := by
  unfold shiftP at h
  by_cases hc : 0 ≤ (p.1 : Int) + d.1 ∧ (p.1 : Int) + d.1 < 50 ∧
      0 ≤ (p.2 : Int) + d.2 ∧ (p.2 : Int) + d.2 < 50
  · rw [if_pos hc] at h
    obtain rfl : ((((p.1 : Int) + d.1).toNat, ((p.2 : Int) + d.2).toNat) : Nat × Nat)
        = q := by injection h
    refine ⟨?_, ?_, ?_, ?_⟩ <;> simp <;> omega
  · rw [if_neg hc] at h
    exact absurd h (by simp)

lemma gridNbrs_mem {cm : Nat × Nat → Option Nat} {p : Nat × Nat}
    {vw : (Nat × Nat) × Nat} (h : vw ∈ gridNbrs cm p) :
    cm vw.1 = some vw.2 ∧ vw.1 ∈ posNodes ∧
      Grid.cheb ((p.1 : Int), (p.2 : Int)) ((vw.1.1 : Int), (vw.1.2 : Int)) = 1 := by
  unfold gridNbrs at h
  rw [List.mem_filterMap] at h
  obtain ⟨d, hd, hbody⟩ := h
  rw [Option.bind_eq_some] at hbody
  obtain ⟨q, hq, hbody2⟩ := hbody
  rw [Option.bind_eq_some] at hbody2
  obtain ⟨w, hw, hbody3⟩ := hbody2
  have hvw : vw = (q, w) := by
    by_cases hdiag : Grid.isDiagonal d = true
    · rw [if_pos hdiag] at hbody3
      by_cases hcorner : (passable cm (p.1, q.2) || passable cm (q.1, p.2)) = true
      · rw [if_pos hcorner] at hbody3
        injection hbody3 with hbody4
        exact hbody4.symm
      · rw [if_neg hcorner] at hbody3
        exact absurd hbody3 (by simp)
    · rw [if_neg hdiag] at hbody3
      injection hbody3 with hbody4
      exact hbody4.symm
  subst hvw
  obtain ⟨he1, he2, hb1, hb2⟩ := shiftP_some hq
  refine ⟨hw, mem_posNodes.mpr ⟨hb1, hb2⟩, ?_⟩
  obtain ⟨hd1, hd2, hd3⟩ := delta_bounds d hd
  unfold Grid.cheb
  simp only []
  omega

lemma gridNbrs_closed (cm : Nat × Nat → Option Nat) :
    ∀ u vw, vw ∈ gridNbrs cm u → vw.1 ∈ posNodes :=
  fun _ vw hvw => (gridNbrs_mem hvw).2.1

lemma unitNbrs_closed (cm : Nat × Nat → Option Nat) :
    ∀ u vw, vw ∈ unitNbrs cm u → vw.1 ∈ posNodes := by
  intro u vw hvw
  unfold unitNbrs at hvw
  rw [List.mem_map] at hvw
  obtain ⟨vw2, hvw2, rfl⟩ := hvw
  exact (gridNbrs_mem hvw2).2.1

lemma zero_consistent (nbrs : (Nat × Nat) → List ((Nat × Nat) × Nat)) :
    Engine.Consistent nbrs (fun _ => 0) := by
  intro u vw _
  simp

lemma chebHeur_consistent {cm : Nat × Nat → Option Nat} (g : Nat × Nat)
    (hcm : ∀ p c, cm p = some c → 1 ≤ c) :
    Engine.Consistent (gridNbrs cm) (chebHeur g) := by
  intro u vw hmem
  obtain ⟨hcmv, _, hadj⟩ := gridNbrs_mem hmem
  have h1 : 1 ≤ vw.2 := hcm _ _ hcmv
  unfold chebHeur
  have htri := Grid.cheb_triangle ((u.1 : Int), (u.2 : Int))
    ((vw.1.1 : Int), (vw.1.2 : Int)) ((g.1 : Int), (g.2 : Int))
  omega

lemma map_self_of_unit {α : Type} (f : α → α) :
    ∀ (l : List α), (∀ x ∈ l, f x = x) → l.map f = l := by
  intro l
  induction l with
  | nil => intro _; rfl
  | cons x rest ih =>
    intro hall
    rw [List.map_cons, hall x (List.mem_cons_self x rest),
      ih (fun y hy => hall y (List.mem_cons_of_mem x hy))]

lemma unitNbrs_eq {cm : Nat × Nat → Option Nat}
    (hcm : ∀ p c, cm p = some c → c = 1) : unitNbrs cm = gridNbrs cm := by
  funext p
  unfold unitNbrs
  refine map_self_of_unit _ _ ?_
  intro vw hvw
  have hw := (gridNbrs_mem hvw).1
  have : vw.2 = 1 := hcm _ _ hw
  rw [show ((vw.1, 1) : (Nat × Nat) × Nat) = (vw.1, vw.2) from by rw [this]]

end Room

/-! ## Budget monotonicity lemmas -/

namespace Engine

variable {V : Type} [DecidableEq V]

lemma runSearch_zero {nbrs : V → List (V × Nat)} {h : V → Nat}
    {sel : List ((V × Nat) × Nat) → Option (V × Nat)} {gs : List V}
    {maxTiles : Nat} (st : SearchState V) :
    runSearch nbrs h sel gs maxTiles 0 st = st := rfl

lemma runSearch_stopped {nbrs : V → List (V × Nat)} {h : V → Nat}
    {sel : List ((V × Nat) × Nat) → Option (V × Nat)} {gs : List V}
    {maxTiles : Nat} {st : SearchState V}
    (hstop : (goalFound gs st || decide (maxTiles ≤ st.settled.length)) = true)
    (fuel : Nat) : runSearch nbrs h sel gs maxTiles fuel st = st := by
  cases fuel with
  | zero => rfl
  | succ fuel => rw [runSearch, if_pos hstop]

lemma runSearch_stuck {nbrs : V → List (V × Nat)} {h : V → Nat}
    {sel : List ((V × Nat) × Nat) → Option (V × Nat)} {gs : List V}
    {maxTiles : Nat} {st : SearchState V}
    (hstep : stepSearch nbrs h sel st = none) (fuel : Nat) :
    runSearch nbrs h sel gs maxTiles fuel st = st := by
  cases fuel with
  | zero => rfl
  | succ fuel =>
    rw [runSearch]
    by_cases hstop : (goalFound gs st || decide (maxTiles ≤ st.settled.length)) = true
    · rw [if_pos hstop]
    · rw [if_neg hstop, hstep]

lemma runSearch_add {nbrs : V → List (V × Nat)} {h : V → Nat}
    {sel : List ((V × Nat) × Nat) → Option (V × Nat)} {gs : List V}
    {maxTiles : Nat} :
    ∀ (n m : Nat) (st : SearchState V),
      runSearch nbrs h sel gs maxTiles (n + m) st =
        runSearch nbrs h sel gs maxTiles m
          (runSearch nbrs h sel gs maxTiles n st) := by
  intro n
  induction n with
  | zero =>
    intro m st
    rw [Nat.zero_add, runSearch_zero]
  | succ n ih =>
    intro m st
    rw [Nat.succ_add]
    by_cases hstop : (goalFound gs st || decide (maxTiles ≤ st.settled.length)) = true
    · rw [runSearch_stopped hstop, runSearch_stopped hstop, runSearch_stopped hstop]
    · rw [runSearch, if_neg hstop]
      rw [show runSearch nbrs h sel gs maxTiles (n + 1) st =
          if goalFound gs st || decide (maxTiles ≤ st.settled.length) then st
          else
            match stepSearch nbrs h sel st with
            | none => st
            | some st2 => runSearch nbrs h sel gs maxTiles n st2 from rfl]
      rw [if_neg hstop]
      rcases hstep : stepSearch nbrs h sel st with _ | st2
      · rw [runSearch_stuck hstep]
      · exact ih m st2

lemma goalFound_mono {nbrs : V → List (V × Nat)} {h : V → Nat}
    {sel : List ((V × Nat) × Nat) → Option (V × Nat)} {gs : List V}
    {maxTiles : Nat} {st : SearchState V}
    (hfound : goalFound gs st = true) (fuel : Nat) :
    goalFound gs (runSearch nbrs h sel gs maxTiles fuel st) = true := by
  rw [runSearch_stopped (by rw [Bool.or_eq_true]; exact Or.inl hfound)]
  exact hfound

lemma goalFound_false_iff {gs : List V} {st : SearchState V} :
    goalFound gs st = false ↔ ∀ g ∈ gs, lookupCost g st.settled = none := by
  rw [goalFound, List.any_eq_false]
  constructor
  · intro hall g hg
    have h2 := hall g hg
    rcases hl : lookupCost g st.settled with _ | d
    · rfl
    · rw [hl] at h2
      simp at h2
  · intro hall g hg
    rw [hall g hg]
    simp

lemma runSearch_tiles_le {nbrs : V → List (V × Nat)} {h : V → Nat}
    {sel : List ((V × Nat) × Nat) → Option (V × Nat)} {gs : List V}
    {t t2 : Nat} (hle : t ≤ t2) :
    ∀ (fuel : Nat) (st : SearchState V),
      goalFound gs (runSearch nbrs h sel gs t fuel st) = true →
      runSearch nbrs h sel gs t2 fuel st =
        runSearch nbrs h sel gs t fuel st := by
  intro fuel
  induction fuel with
  | zero => intro st _; rfl
  | succ fuel ih =>
    intro st hfound
    by_cases hgoal : goalFound gs st = true
    · rw [runSearch_stopped (by rw [Bool.or_eq_true]; exact Or.inl hgoal),
        runSearch_stopped (by rw [Bool.or_eq_true]; exact Or.inl hgoal)]
    · by_cases htile : t ≤ st.settled.length
      · rw [runSearch_stopped (by simp [htile])] at hfound
        exact absurd hfound (by simpa using hgoal)
      · have hcond : (goalFound gs st || decide (t ≤ st.settled.length)) = false := by
          simp [htile]
          simpa using hgoal
        have hcond2 : (goalFound gs st || decide (t2 ≤ st.settled.length)) = false := by
          simp
          constructor
          · simpa using hgoal
          · omega
        rw [runSearch, if_neg (by rw [hcond2]; simp)]
        rw [runSearch, if_neg (by rw [hcond]; simp)] at hfound ⊢
        rcases hstep : stepSearch nbrs h sel st with _ | st2
        · rfl
        · rw [hstep] at hfound
          exact ih st2 hfound

end Engine

/-! ## Multiroom query lemmas -/

namespace Engine

variable {V : Type} [DecidableEq V]

lemma walkCost_mono {n1 n2 : V → List (V × Nat)}
    (hsub : ∀ u vw, vw ∈ n1 u → vw ∈ n2 u) {s v : V} {c : Nat}
    (hw : WalkCost n1 s v c) : WalkCost n2 s v c := by
  induction hw with
  | nil => exact WalkCost.nil
  | cons _ hedge ih => exact WalkCost.cons ih (hsub _ _ hedge)

lemma runSearch_keys_pred {nbrs : V → List (V × Nat)} {h : V → Nat}
    {sel : List ((V × Nat) × Nat) → Option (V × Nat)} {gs : List V}
    {maxTiles : Nat} {P : V → Prop} (hsel : SelSpec sel)
    (hP : ∀ u vw, vw ∈ nbrs u → P vw.1) :
    ∀ (fuel : Nat) (st : SearchState V),
      (∀ k ∈ st.settled.map Prod.fst, P k) →
      ∀ k ∈ (runSearch nbrs h sel gs maxTiles fuel st).settled.map Prod.fst, P k := by
  intro fuel
  induction fuel with
  | zero => exact fun st hall => hall
  | succ fuel ih =>
    intro st hall
    rw [runSearch]
    by_cases hstop : (goalFound gs st || decide (maxTiles ≤ st.settled.length)) = true
    · rw [if_pos hstop]
      exact hall
    · rw [if_neg hstop]
      rcases hstep : stepSearch nbrs h sel st with _ | st2
      · exact hall
      · refine ih st2 ?_
        obtain ⟨vt, hpick, hset⟩ := stepSearch_eq_some hstep
        obtain ⟨p, hpmem, _⟩ := hsel.mem_min _ _ hpick
        rw [List.mem_map] at hpmem
        obtain ⟨cand, hcand, heq⟩ := hpmem
        rw [Prod.mk.injEq] at heq
        obtain ⟨rfl, rfl⟩ := heq
        obtain ⟨u, du, w, _, hedge, _, _⟩ := cands_mem.mp hcand
        intro k hk
        rw [hset, List.map_append, List.mem_append] at hk
        rcases hk with hk | hk
        · exact hall k hk
        · simp only [List.map_cons, List.map_nil, List.mem_singleton] at hk
          subst hk
          exact hP u (cand.1, w) hedge

end Engine

namespace Multiroom

lemma costLE_refl (x : Option Nat) : costLE x x := by
  cases x with
  | none => trivial
  | some a => exact le_refl a

lemma costLE_top (x : Option Nat) : costLE x none := by
  cases x <;> trivial

lemma mrNbrs_target {W : World} {region : Int × Int → Bool} {u : Int × Int}
    {vw : (Int × Int) × Nat} (h : vw ∈ mrNbrs W region u) :
    (costAt W vw.1).isSome = true := by
  unfold mrNbrs at h
  rw [List.mem_filterMap] at h
  obtain ⟨d, _, hbody⟩ := h
  simp only [] at hbody
  by_cases hreg : region (Grid.shift u d) = true
  · rw [if_pos hreg] at hbody
    rw [Option.bind_eq_some] at hbody
    obtain ⟨w, hw, hbody2⟩ := hbody
    have hvw : vw = (Grid.shift u d, w) := by
      by_cases hdiag : Grid.isDiagonal d = true
      · rw [if_pos hdiag] at hbody2
        by_cases hcorner : (passableM W region (u.1, (Grid.shift u d).2) ||
            passableM W region ((Grid.shift u d).1, u.2)) = true
        · rw [if_pos hcorner] at hbody2
          injection hbody2 with h2
          exact h2.symm
        · rw [if_neg hcorner] at hbody2
          exact absurd hbody2 (by simp)
      · rw [if_neg hdiag] at hbody2
        injection hbody2 with h2
        exact h2.symm
    subst hvw
    rw [hw]
    rfl
  · rw [if_neg hreg] at hbody
    exact absurd hbody (by simp)

lemma passableM_mono {W : World} {region region2 : Int × Int → Bool}
    (hsub : ∀ q, region q = true → region2 q = true) :
    ∀ c, passableM W region c = true → passableM W region2 c = true := by
  intro c h
  unfold passableM at h ⊢
  rw [Bool.and_eq_true] at h ⊢
  exact ⟨hsub c h.1, h.2⟩

lemma mrNbrs_mono {W : World} {region region2 : Int × Int → Bool}
    (hsub : ∀ q, region q = true → region2 q = true) :
    ∀ u vw, vw ∈ mrNbrs W region u → vw ∈ mrNbrs W region2 u := by
  intro u vw h
  unfold mrNbrs at h ⊢
  rw [List.mem_filterMap] at h ⊢
  obtain ⟨d, hd, hbody⟩ := h
  refine ⟨d, hd, ?_⟩
  simp only [] at hbody ⊢
  by_cases hreg : region (Grid.shift u d) = true
  · rw [if_pos hreg] at hbody
    rw [if_pos (hsub _ hreg)]
    rw [Option.bind_eq_some] at hbody ⊢
    obtain ⟨w, hw, hbody2⟩ := hbody
    refine ⟨w, hw, ?_⟩
    by_cases hdiag : Grid.isDiagonal d = true
    · rw [if_pos hdiag] at hbody2 ⊢
      by_cases hcorner : (passableM W region (u.1, (Grid.shift u d).2) ||
          passableM W region ((Grid.shift u d).1, u.2)) = true
      · rw [if_pos hcorner] at hbody2
        have hcorner2 : (passableM W region2 (u.1, (Grid.shift u d).2) ||
            passableM W region2 ((Grid.shift u d).1, u.2)) = true := by
          rw [Bool.or_eq_true] at hcorner ⊢
          rcases hcorner with hc | hc
          · exact Or.inl (passableM_mono hsub _ hc)
          · exact Or.inr (passableM_mono hsub _ hc)
        rw [if_pos hcorner2]
        exact hbody2
      · rw [if_neg hcorner] at hbody2
        exact absurd hbody2 (by simp)
    · rw [if_neg hdiag] at hbody2 ⊢
      exact hbody2
  · rw [if_neg hreg] at hbody
    exact absurd hbody (by simp)

lemma regionOf_mono {origin : Int × Int} {r r2 : Nat} (hle : r ≤ r2) :
    ∀ q, regionOf origin r q = true → regionOf origin r2 q = true := by
  intro q h
  unfold regionOf at h ⊢
  rw [decide_eq_true_iff] at h ⊢
  omega

lemma queryCost_none_of_incomplete {W : World} {origin : Int × Int}
    {goals : List (Int × Int)} {maxOps maxTiles maxRoomDistance : Nat}
    (h : queryIncomplete W origin goals maxOps maxTiles maxRoomDistance = true) :
    queryCost W origin goals maxOps maxTiles maxRoomDistance = none := by
  unfold queryIncomplete at h
  rw [Bool.not_eq_true'] at h
  rw [Engine.goalFound_false_iff] at h
  unfold queryCost
  rw [List.findSome?_eq_none_iff]
  intro g hg
  exact h g hg

end Multiroom

namespace Multiroom

lemma pathQueryCore_of_none {W : World} {origin : Int × Int}
    {goals : List (Int × Int)} {maxOps maxTiles maxRoomDistance maxPathLength : Nat}
    (hfind : goals.findSome? (fun g =>
        (Engine.lookupCost g
          (queryRun W origin goals maxOps maxTiles maxRoomDistance).settled).map
          (fun d => (g, d))) = none) :
    pathQueryCore W origin goals maxOps maxTiles maxRoomDistance maxPathLength =
      ⟨[], none, true⟩ := by
  unfold pathQueryCore
  rw [hfind]

lemma findSome?_none_of_incomplete {W : World} {origin : Int × Int}
    {goals : List (Int × Int)} {maxOps maxTiles maxRoomDistance : Nat}
    (h : queryIncomplete W origin goals maxOps maxTiles maxRoomDistance = true) :
    goals.findSome? (fun g =>
        (Engine.lookupCost g
          (queryRun W origin goals maxOps maxTiles maxRoomDistance).settled).map
          (fun d => (g, d))) = none := by
  unfold queryIncomplete at h
  rw [Bool.not_eq_true'] at h
  rw [Engine.goalFound_false_iff] at h
  rw [List.findSome?_eq_none_iff]
  intro g hg
  rw [h g hg]
  rfl

end Multiroom

/-! ## Claim theorems for the helper components -/

/-- C6: a point-to-point path query with an empty or missing destination
list throws the error `At least one destination must be set`
synchronously, before any search work (the conclusion holds for every
behaviour of the abstracted WASM search), for `jpsPath`,
`rust_pathfinder` and `jasper_star` alike. -/
theorem claim_C6 :
    ∀ (jsJ : RoomPosition → List RoomPosition → Option PathfinderResult)
      (jsP : RoomPosition → List RoomPosition → List RoomPosition)
      (jsK : List RoomPosition → List RoomPosition → Nat → List RoomPosition)
      (origin : RoomPosition) (start : List RoomPosition) (maxOps : Nat),
      (jasper_star jsJ origin none = .error "At least one destination must be set" ∧
        jasper_star jsJ origin (some []) = .error "At least one destination must be set") ∧
      (rust_pathfinder jsP origin none = .error "At least one destination must be set" ∧
        rust_pathfinder jsP origin (some []) = .error "At least one destination must be set") ∧
      (jpsPath jsK start none maxOps = .error "At least one destination must be set" ∧
        jpsPath jsK start (some []) maxOps = .error "At least one destination must be set") :=
  fun _ _ _ _ _ _ => ⟨⟨rfl, rfl⟩, ⟨rfl, rfl⟩, ⟨rfl, rfl⟩⟩

/-- C8 counterexample: `findWinners` with an empty implementation list
in match mode and no reference value returns the empty winner list
without throwing, so not every match-mode call without a reference
throws. -/
theorem claim_C8_counterexample :
    MetricCalculator.findWinners [] .«match» none = .ok [] := rfl

/-- C8 (amended): match-mode metric comparisons without a reference
value throw `Reference value required for match mode`: `beats` and
`beatReference` always, and `findWinners` whenever the implementation
list is nonempty (an empty list returns the empty winner list before
consulting the reference). -/
theorem claim_C8 :
    (∀ v w : Int,
      MetricCalculator.beats v w .«match» none =
        .error "Reference value required for match mode") ∧
    (∀ (impl : String × Int) (rest : List (String × Int)),
      MetricCalculator.findWinners (impl :: rest) .«match» none =
        .error "Reference value required for match mode") ∧
    (∀ v : Int,
      MetricCalculator.beatReference v none .«match» =
        .error "Reference value required for match mode") :=
  ⟨fun _ _ => rfl, fun _ _ => rfl, fun _ => rfl⟩

/-- C10: in match mode `beatReference` throws the missing-reference
error whenever the supplied reference equals 0, treating a legitimate
zero reference like a missing one, while `beats` and `findWinners`
accept a zero reference in match mode without throwing. -/
theorem claim_C10 :
    (∀ v : Int,
      MetricCalculator.beatReference v (some 0) .«match» =
        .error "Reference value required for match mode") ∧
    (∀ v w : Int, (MetricCalculator.beats v w .«match» (some 0)).toOption.isSome = true) ∧
    (∀ impls : List (String × Int),
      (MetricCalculator.findWinners impls .«match» (some 0)).toOption.isSome = true) := by
  refine ⟨fun v => rfl, fun v w => rfl, fun impls => ?_⟩
  cases impls <;> rfl

/-- C9: `getPathCost` returns Infinity (`none`) exactly when some
position of the list lies on wall terrain, and otherwise returns the
sum, over all positions including the first, of 5 for a swamp tile and
1 for any other tile. -/
theorem claim_C9 {α : Type} (terrain : α → Terrain) (l : List α) :
    (getPathCost terrain l = none ↔ ∃ p ∈ l, terrain p = .wall) ∧
    ((∀ p ∈ l, terrain p ≠ .wall) →
      getPathCost terrain l = some ((l.map (fun p => terrainStepCost (terrain p))).sum)) := by
  induction l with
  | nil => exact ⟨by simp [getPathCost], fun _ => by simp [getPathCost]⟩
  | cons p rest ih =>
    refine ⟨?_, ?_⟩
    · rw [getPathCost]
      by_cases hw : terrain p = .wall
      · simp [hw]
      · rw [if_neg hw]
        constructor
        · intro hnone
          rcases h : getPathCost terrain rest with _ | c
          · rcases ih.1.mp h with ⟨q, hq, hqw⟩
            exact ⟨q, List.mem_cons_of_mem p hq, hqw⟩
          · rw [h] at hnone
            exact absurd hnone (by simp)
        · rintro ⟨q, hq, hqw⟩
          rcases List.mem_cons.mp hq with rfl | hq2
          · exact absurd hqw hw
          · rw [ih.1.mpr ⟨q, hq2, hqw⟩]
    · intro hnw
      have hw : terrain p ≠ .wall := hnw p (List.mem_cons_self p rest)
      have hrest := ih.2 (fun q hq => hnw q (List.mem_cons_of_mem p hq))
      rw [getPathCost, if_neg hw, hrest]
      simp

/-- Witness for C9 at a concrete terrain and position list. -/
theorem claim_C9_witness :
    (∀ p ∈ [0, 1, 0], witnessTerrain p ≠ .wall) ∧
    getPathCost witnessTerrain [0, 1, 0] =
      some (([0, 1, 0].map (fun p => terrainStepCost (witnessTerrain p))).sum) :=
  ⟨by decide, (claim_C9 witnessTerrain [0, 1, 0]).2 (by decide)⟩

/-- C7 counterexample: the room name `W01N1` matches the grammar
`[WE]\d+[NS]\d+` and parses (to room coordinates (-2, -2)), but
formatting those coordinates back yields the canonical `W1N1`, not the
original name: the round trip fails on digit groups with leading
zeros. -/
theorem claim_C7_counterexample :
    RoomName.parseRoomName "W01N1" = some (-2, -2) ∧
    (RoomName.parseRoomName "W01N1").map (fun p => RoomName.coordToRoomName p.1 p.2) = some "W1N1" ∧
    ("W1N1" : String) ≠ "W01N1" := by
  refine ⟨?_, ?_, by decide⟩ <;> rfl

/-- C7 (amended): for every room name in canonical form, that is, every
name produced by the coordinate formatter (equivalently: matching the
grammar with no redundant leading zeros in the digit groups), parsing
under the convention W n gives x = -n-1, E n gives x = n, N n gives
y = -n-1, S n gives y = n and formatting back returns the original
name. -/
theorem claim_C7 (name : String) (x y : Int) (hname : name = RoomName.coordToRoomName x y) :
    (RoomName.parseRoomName name).map (fun p => RoomName.coordToRoomName p.1 p.2) = some name := by
  subst hname
  rw [RoomName.parse_coordToRoomName]
  rfl

/-- Witness for C7 at the canonical room name `W1N1`. -/
theorem claim_C7_witness :
    ("W1N1" : String) = RoomName.coordToRoomName (-2) (-2) ∧
    (RoomName.parseRoomName "W1N1").map (fun p => RoomName.coordToRoomName p.1 p.2) = some "W1N1" :=
  ⟨by decide, claim_C7 "W1N1" (-2) (-2) (by decide)⟩

/-- C2: in the scenario of the `multiroomMonoFlowFieldPath` test (an
all-plain cost matrix for rooms W1N1, W1N2 and W2N2 and `undefined` for
every other room), the BFS multiroom distance map started at (25, 25)
in W1N1, converted to a mono flow field, gives `pathToOrigin` at
(25, 25) in W2N2 a path whose first coordinate is (25, 25) of W2N2,
whose last coordinate is (25, 25) of W1N1, and whose length is exactly
51. -/
theorem claim_C2 :
    RoomName.parseRoomName "W1N1" = some (-2, -2) ∧
    RoomName.parseRoomName "W2N2" = some (-3, -3) ∧
    (Field.pathToOrigin Field.testScenario 7500 Field.testGoal).head? =
      some (Grid.globalOf (-3, -3) 25 25) ∧
    (Field.pathToOrigin Field.testScenario 7500 Field.testGoal).getLast? =
      some (Grid.globalOf (-2, -2) 25 25) ∧
    (Field.pathToOrigin Field.testScenario 7500 Field.testGoal).length = 51 := by
  have hwalk : Field.walkCheck Field.testScenario Field.testGoal Field.testWalk = true := by
    decide
  have hlen : Field.testWalk.length = 50 := by decide
  have hreach : Field.reachIn Field.testScenario 50 Field.testGoal = true := by
    have h := Field.walkCheck_reachIn Field.testWalk Field.testGoal hwalk
    rwa [hlen] at h
  have hcheb : Grid.cheb Field.testScenario.start Field.testGoal = 50 := by decide
  have hmin : ∀ e < 50, Field.reachIn Field.testScenario e Field.testGoal = false := by
    intro e he
    by_contra hcon
    rw [Bool.not_eq_false] at hcon
    have h := Field.reachIn_cheb hcon
    omega
  have hdist : Field.dist Field.testScenario Field.testGoal = some 50 :=
    Field.dist_eq_some hreach hmin (by decide)
  have hstart : Field.testScenario.allowed Field.testScenario.start = true := by decide
  obtain ⟨hlen2, hhead, hlast, _⟩ :=
    Field.pathToOrigin_spec hstart 50 Field.testGoal 7500 hdist (by omega)
  exact ⟨by decide, by decide, hhead, hlast, by rw [hlen2]⟩

/-- C4: a path reconstructed by `pathToOrigin` from a reached
destination is contiguous, each consecutive pair of coordinates at
Chebyshev distance 1 in global coordinates (grid adjacency including
diagonals; a room-boundary crossing is such an adjacency between tiles
of neighbouring rooms); its first coordinate is the queried destination
(range 0 of the goal) and its last coordinate is the start the distance
map was built from (range 0, hence within range 1, of a start). -/
theorem claim_C4 (S : Field.Scenario) (c : Int × Int) (d fuel : Nat)
    (hstart : S.allowed S.start = true) (hd : Field.dist S c = some d)
    (hfuel : d ≤ fuel) :
    (Field.pathToOrigin S fuel c).Chain' (fun a b => Grid.cheb a b = 1) ∧
    (Field.pathToOrigin S fuel c).head? = some c ∧
    (Field.pathToOrigin S fuel c).getLast? = some S.start := by
  obtain ⟨_, hhead, hlast, hchain⟩ := Field.pathToOrigin_spec hstart d c fuel hd hfuel
  exact ⟨hchain, hhead, hlast⟩

/-- Witness for C4 on the small concrete scenario. -/
theorem claim_C4_witness :
    Field.tinyScenario.allowed Field.tinyScenario.start = true ∧
    Field.dist Field.tinyScenario (1, 1) = some 1 ∧ 1 ≤ 3 ∧
    ((Field.pathToOrigin Field.tinyScenario 3 (1, 1)).Chain'
        (fun a b => Grid.cheb a b = 1) ∧
      (Field.pathToOrigin Field.tinyScenario 3 (1, 1)).head? = some (1, 1) ∧
      (Field.pathToOrigin Field.tinyScenario 3 (1, 1)).getLast? =
        some Field.tinyScenario.start) :=
  ⟨by decide, by decide, by decide,
    claim_C4 Field.tinyScenario (1, 1) 1 3 (by decide) (by decide) (by decide)⟩

/-- Helper for the C1 witness: the uniform witness matrix only carries
cost 1. -/
theorem cmUnit_values : ∀ p c, Room.cmUnit p = some c → c = 1 := by
  intro p c h
  unfold Room.cmUnit at h
  by_cases hp : p = (0, 0) ∨ p = (1, 0) ∨ p = (2, 0)
  · rw [if_pos hp] at h
    injection h with h2
    exact h2.symm
  · rw [if_neg hp] at h
    exact absurd h (by simp)

/-- Helper for the C1 witness: the uniform witness matrix has costs at
least 1. -/
theorem cmUnit_ge1 : ∀ p c, Room.cmUnit p = some c → 1 ≤ c := by
  intro p c h
  rw [cmUnit_values p c h]

/-- C1 counterexample: on the cost matrix with a plain start tile and a
swamp goal tile (cost 5), the BFS engine reports the uniform-cost
distance 1 while Dijkstra and every A* variant report the weighted
shortest-path cost 5, so the engines do not all return the same cost
for every fixed cost matrix. -/
theorem claim_C1_counterexample :
    Room.bfs_cost Room.cmSwamp (0, 0) (1, 0) = some 1 ∧
    Room.dijkstra_cost Room.cmSwamp (0, 0) (1, 0) = some 5 ∧
    Room.astar_heap_cost Room.cmSwamp (0, 0) (1, 0) = some 5 ∧
    Room.astar_numeric_cost Room.cmSwamp (0, 0) (1, 0) = some 5 ∧
    Room.astar_standard_cost Room.cmSwamp (0, 0) (1, 0) = some 5 ∧
    Room.bfs_cost Room.cmSwamp (0, 0) (1, 0) ≠
      Room.dijkstra_cost Room.cmSwamp (0, 0) (1, 0) := by
  refine ⟨?_, ?_, ?_, ?_, ?_, ?_⟩ <;> decide

/-- C1 (amended): on a fixed cost matrix with every traversable cost at
least 1 (so the Chebyshev heuristic is admissible and consistent, as
the spec assumes), the Dijkstra engine and the heap-frontier,
numeric-frontier and standard A* variants all return the same
shortest-path cost for every start and goal, whether or not a path
exists; the BFS engine agrees with them whenever every traversable cost
equals 1 (the uniform case BFS is specified for). -/
theorem claim_C1 (cm : Nat × Nat → Option Nat) (s g : Nat × Nat)
    (hcm : ∀ p c, cm p = some c → 1 ≤ c) :
    Room.dijkstra_cost cm s g = Room.astar_heap_cost cm s g ∧
    Room.dijkstra_cost cm s g = Room.astar_numeric_cost cm s g ∧
    Room.dijkstra_cost cm s g = Room.astar_standard_cost cm s g ∧
    ((∀ p c, cm p = some c → c = 1) →
      Room.bfs_cost cm s g = Room.dijkstra_cost cm s g) := by
  have hlen : Room.posNodes.length = Room.roomTileCount := Room.posNodes_length
  refine ⟨?_, ?_, ?_, ?_⟩
  · have h1 := Engine.engineRun_agree (s := s) (g := g) Engine.selHeap_spec
      (Room.zero_consistent (Room.gridNbrs cm)) Engine.selHeap_spec
      (Room.chebHeur_consistent g hcm) (Room.gridNbrs_closed cm)
    rw [hlen] at h1
    exact h1
  · have h1 := Engine.engineRun_agree (s := s) (g := g) Engine.selHeap_spec
      (Room.zero_consistent (Room.gridNbrs cm)) Engine.selNumeric_spec
      (Room.chebHeur_consistent g hcm) (Room.gridNbrs_closed cm)
    rw [hlen] at h1
    exact h1
  · have h1 := Engine.engineRun_agree (s := s) (g := g) Engine.selHeap_spec
      (Room.zero_consistent (Room.gridNbrs cm)) Engine.selStandard_spec
      (Room.chebHeur_consistent g hcm) (Room.gridNbrs_closed cm)
    rw [hlen] at h1
    exact h1
  · intro hunit
    unfold Room.bfs_cost Room.dijkstra_cost
    rw [Room.unitNbrs_eq hunit]

/-- Witness for C1 on the uniform three-tile matrix. -/
theorem claim_C1_witness :
    (∀ p c, Room.cmUnit p = some c → 1 ≤ c) ∧
    (Room.dijkstra_cost Room.cmUnit (0, 0) (2, 0) =
        Room.astar_heap_cost Room.cmUnit (0, 0) (2, 0) ∧
      Room.dijkstra_cost Room.cmUnit (0, 0) (2, 0) =
        Room.astar_numeric_cost Room.cmUnit (0, 0) (2, 0) ∧
      Room.dijkstra_cost Room.cmUnit (0, 0) (2, 0) =
        Room.astar_standard_cost Room.cmUnit (0, 0) (2, 0) ∧
      ((∀ p c, Room.cmUnit p = some c → c = 1) →
        Room.bfs_cost Room.cmUnit (0, 0) (2, 0) =
          Room.dijkstra_cost Room.cmUnit (0, 0) (2, 0))) :=
  ⟨cmUnit_ge1, claim_C1 Room.cmUnit (0, 0) (2, 0) cmUnit_ge1⟩

/-- C3: for every multiroom point-to-point query with a nonempty goal
list the facade returns a result and never throws: when the search ends
with no goal settled (a budget among maxOps/maxTiles/maxRoomDistance
exhausted, or no path exists) the result is the empty path with
`incomplete = true`; a start in an impassable cell or a room whose cost
provider returns `undefined` yields the empty path with
`incomplete = true`; and goals that are all impassable or in
non-traversable rooms likewise yield the empty path with
`incomplete = true` — in every case an `Except.ok`, never an
exception. -/
theorem claim_C3 (W : Multiroom.World) (origin : Int × Int) (goals : List (Int × Int))
    (maxOps maxTiles maxRoomDistance maxPathLength : Nat) (hgoals : goals ≠ []) :
    (∃ r, Multiroom.pathQuery W origin goals maxOps maxTiles maxRoomDistance maxPathLength
        = .ok r) ∧
    (Multiroom.queryIncomplete W origin goals maxOps maxTiles maxRoomDistance = true →
      Multiroom.pathQuery W origin goals maxOps maxTiles maxRoomDistance maxPathLength
        = .ok ⟨[], none, true⟩) ∧
    (Multiroom.costAt W origin = none →
      Multiroom.pathQuery W origin goals maxOps maxTiles maxRoomDistance maxPathLength
        = .ok ⟨[], none, true⟩) ∧
    ((Multiroom.costAt W origin).isSome = true →
      (∀ g ∈ goals, Multiroom.costAt W g = none) →
      Multiroom.pathQuery W origin goals maxOps maxTiles maxRoomDistance maxPathLength
        = .ok ⟨[], none, true⟩) := by
  have hne : ¬(goals.isEmpty = true) := by
    cases goals with
    | nil => exact absurd rfl hgoals
    | cons g gs2 => simp
  by_cases horig : (Multiroom.costAt W origin).isNone = true
  · have heq : Multiroom.pathQuery W origin goals maxOps maxTiles maxRoomDistance
        maxPathLength = .ok ⟨[], none, true⟩ := by
      unfold Multiroom.pathQuery
      rw [if_neg hne, if_pos horig]
    exact ⟨⟨_, heq⟩, fun _ => heq, fun _ => heq, fun _ _ => heq⟩
  · have hqe : Multiroom.pathQuery W origin goals maxOps maxTiles maxRoomDistance
        maxPathLength = .ok (Multiroom.pathQueryCore W origin goals maxOps maxTiles
          maxRoomDistance maxPathLength) := by
      unfold Multiroom.pathQuery
      rw [if_neg hne, if_neg horig]
    refine ⟨⟨_, hqe⟩, ?_, ?_, ?_⟩
    · intro hinc
      rw [hqe,
        Multiroom.pathQueryCore_of_none (Multiroom.findSome?_none_of_incomplete hinc)]
    · intro hnone
      exact absurd (by rw [hnone]; rfl) horig
    · intro _ hgnone
      have hkeys : ∀ k ∈ (Multiroom.queryRun W origin goals maxOps maxTiles
          maxRoomDistance).settled.map Prod.fst,
          k = origin ∨ (Multiroom.costAt W k).isSome = true := by
        refine Engine.runSearch_keys_pred Engine.selHeap_spec ?_ maxOps
          (Engine.initState origin) ?_
        · intro u vw hvw
          exact Or.inr (Multiroom.mrNbrs_target hvw)
        · intro k hk
          simp only [Engine.initState, List.map_cons, List.map_nil,
            List.mem_singleton] at hk
          exact Or.inl hk
      have hfind : goals.findSome? (fun g =>
          (Engine.lookupCost g (Multiroom.queryRun W origin goals maxOps maxTiles
            maxRoomDistance).settled).map (fun d => (g, d))) = none := by
        rw [List.findSome?_eq_none_iff]
        intro g hg
        rcases hl : Engine.lookupCost g (Multiroom.queryRun W origin goals maxOps
            maxTiles maxRoomDistance).settled with _ | d
        · rfl
        · have hgk : g ∈ (Multiroom.queryRun W origin goals maxOps maxTiles
              maxRoomDistance).settled.map Prod.fst :=
            List.mem_map_of_mem Prod.fst (Engine.mem_of_lookupCost hl)
          rcases hkeys g hgk with rfl | hsome2
          · refine absurd ?_ horig
            rw [hgnone g hg]
            rfl
          · rw [hgnone g hg] at hsome2
            exact absurd hsome2 (by simp)
      rw [hqe, Multiroom.pathQueryCore_of_none hfind]

/-- Witness for C3 on the concrete two-room world. -/
theorem claim_C3_witness :
    ([Multiroom.cexGoal] ≠ ([] : List (Int × Int))) ∧
    ((∃ r, Multiroom.pathQuery Multiroom.cexWorld Multiroom.cexOrigin
        [Multiroom.cexGoal] 1 1000 0 100 = .ok r) ∧
      (Multiroom.queryIncomplete Multiroom.cexWorld Multiroom.cexOrigin
          [Multiroom.cexGoal] 1 1000 0 = true →
        Multiroom.pathQuery Multiroom.cexWorld Multiroom.cexOrigin
          [Multiroom.cexGoal] 1 1000 0 100 = .ok ⟨[], none, true⟩) ∧
      (Multiroom.costAt Multiroom.cexWorld Multiroom.cexOrigin = none →
        Multiroom.pathQuery Multiroom.cexWorld Multiroom.cexOrigin
          [Multiroom.cexGoal] 1 1000 0 100 = .ok ⟨[], none, true⟩) ∧
      ((Multiroom.costAt Multiroom.cexWorld Multiroom.cexOrigin).isSome = true →
        (∀ g ∈ [Multiroom.cexGoal], Multiroom.costAt Multiroom.cexWorld g = none) →
        Multiroom.pathQuery Multiroom.cexWorld Multiroom.cexOrigin
          [Multiroom.cexGoal] 1 1000 0 100 = .ok ⟨[], none, true⟩)) :=
  ⟨by decide, claim_C3 Multiroom.cexWorld Multiroom.cexOrigin [Multiroom.cexGoal]
    1 1000 0 100 (by decide)⟩

/-- C5 counterexample: in the two-room world with the same cost
provider, start and goal, and a fixed operation budget of 1, the query
with maxRoomDistance 0 completes (the goal is the only candidate and is
settled at once), while the query with maxRoomDistance 1 spends its
single operation on a tile of the newly allowed western room and ends
incomplete: increasing maxRoomDistance flipped `incomplete` from false
to true. -/
theorem claim_C5_counterexample :
    Multiroom.queryIncomplete Multiroom.cexWorld Multiroom.cexOrigin
      [Multiroom.cexGoal] 1 1000 0 = false ∧
    Multiroom.queryIncomplete Multiroom.cexWorld Multiroom.cexOrigin
      [Multiroom.cexGoal] 1 1000 1 = true := by
  refine ⟨?_, ?_⟩ <;> decide

/-- C5 (amended): for the same query, increasing maxOps or maxTiles
never flips `incomplete` from false to true, leaves the reported cost
unchanged once the search was complete, and never increases the
reported cost (an absent cost counting as infinite); increasing
maxRoomDistance never increases the true shortest-path cost over the
enlarged region, but with another budget fixed it can flip `incomplete`
from false to true (see the counterexample). -/
theorem claim_C5 (W : Multiroom.World) (origin : Int × Int) (goals : List (Int × Int))
    (maxOps k maxTiles tk r r2 : Nat) :
    (Multiroom.queryIncomplete W origin goals maxOps maxTiles r = false →
      Multiroom.queryIncomplete W origin goals (maxOps + k) maxTiles r = false ∧
      Multiroom.queryCost W origin goals (maxOps + k) maxTiles r =
        Multiroom.queryCost W origin goals maxOps maxTiles r) ∧
    Multiroom.costLE (Multiroom.queryCost W origin goals (maxOps + k) maxTiles r)
      (Multiroom.queryCost W origin goals maxOps maxTiles r) ∧
    (Multiroom.queryIncomplete W origin goals maxOps maxTiles r = false →
      Multiroom.queryIncomplete W origin goals maxOps (maxTiles + tk) r = false ∧
      Multiroom.queryCost W origin goals maxOps (maxTiles + tk) r =
        Multiroom.queryCost W origin goals maxOps maxTiles r) ∧
    Multiroom.costLE (Multiroom.queryCost W origin goals maxOps (maxTiles + tk) r)
      (Multiroom.queryCost W origin goals maxOps maxTiles r) ∧
    (r ≤ r2 → ∀ g d d2,
      Engine.IsLeastCost (Multiroom.mrNbrs W (Multiroom.regionOf origin r)) origin g d →
      Engine.IsLeastCost (Multiroom.mrNbrs W (Multiroom.regionOf origin r2)) origin g d2 →
      d2 ≤ d) := by
  have hops : Multiroom.queryIncomplete W origin goals maxOps maxTiles r = false →
      Multiroom.queryRun W origin goals (maxOps + k) maxTiles r =
        Multiroom.queryRun W origin goals maxOps maxTiles r := by
    intro hinc
    unfold Multiroom.queryIncomplete at hinc
    rw [Bool.not_eq_false'] at hinc
    unfold Multiroom.queryRun at hinc ⊢
    rw [Engine.runSearch_add]
    exact Engine.runSearch_stopped (by rw [Bool.or_eq_true]; exact Or.inl hinc) k
  have htiles : Multiroom.queryIncomplete W origin goals maxOps maxTiles r = false →
      Multiroom.queryRun W origin goals maxOps (maxTiles + tk) r =
        Multiroom.queryRun W origin goals maxOps maxTiles r := by
    intro hinc
    unfold Multiroom.queryIncomplete at hinc
    rw [Bool.not_eq_false'] at hinc
    unfold Multiroom.queryRun at hinc ⊢
    exact Engine.runSearch_tiles_le (Nat.le_add_right maxTiles tk) maxOps
      (Engine.initState origin) hinc
  refine ⟨?_, ?_, ?_, ?_, ?_⟩
  · intro hinc
    have hst := hops hinc
    constructor
    · unfold Multiroom.queryIncomplete
      rw [hst]
      exact hinc
    · unfold Multiroom.queryCost
      rw [hst]
  · by_cases hinc : Multiroom.queryIncomplete W origin goals maxOps maxTiles r = false
    · have hst := hops hinc
      unfold Multiroom.queryCost
      rw [hst]
      exact Multiroom.costLE_refl _
    · rw [Bool.not_eq_false] at hinc
      rw [Multiroom.queryCost_none_of_incomplete hinc]
      exact Multiroom.costLE_top _
  · intro hinc
    have hst := htiles hinc
    constructor
    · unfold Multiroom.queryIncomplete
      rw [hst]
      exact hinc
    · unfold Multiroom.queryCost
      rw [hst]
  · by_cases hinc : Multiroom.queryIncomplete W origin goals maxOps maxTiles r = false
    · have hst := htiles hinc
      unfold Multiroom.queryCost
      rw [hst]
      exact Multiroom.costLE_refl _
    · rw [Bool.not_eq_false] at hinc
      rw [Multiroom.queryCost_none_of_incomplete hinc]
      exact Multiroom.costLE_top _
  · intro hler g d d2 h1 h2
    exact h2.2 d (Engine.walkCost_mono
      (Multiroom.mrNbrs_mono (Multiroom.regionOf_mono hler)) h1.1)

/-- Witness for C5 on the concrete two-room world. -/
theorem claim_C5_witness :
    Multiroom.queryIncomplete Multiroom.cexWorld Multiroom.cexOrigin
      [Multiroom.cexGoal] 1 1000 0 = false ∧
    (Multiroom.queryIncomplete Multiroom.cexWorld Multiroom.cexOrigin
        [Multiroom.cexGoal] (1 + 5) 1000 0 = false ∧
      Multiroom.queryCost Multiroom.cexWorld Multiroom.cexOrigin
          [Multiroom.cexGoal] (1 + 5) 1000 0 =
        Multiroom.queryCost Multiroom.cexWorld Multiroom.cexOrigin
          [Multiroom.cexGoal] 1 1000 0) :=
  ⟨by decide, (claim_C5 Multiroom.cexWorld Multiroom.cexOrigin [Multiroom.cexGoal]
    1 5 1000 7 0 0).1 (by decide)⟩

end Clockwork
